import Mathlib

/-!
Shallow embedding of the awkward-array node algebra sampled in
`src/libawkward/array/UnionArray.cpp`, `RecordArray.cpp` and
`UnmaskedArray.cpp`.

Conventions of the embedding:
* `Index` buffers become `List Int` (the logical sequence of the window);
  the C-ABI kernels, which live outside the sampled source, are modelled
  from the spec where their behaviour decides a claim and are noted as such.
* every node carries its `parameters` map as an association list
  (`Params`); the `identities` bookkeeping is omitted (the spec declares
  its semantics out of scope: it adds no new rules).
* machine integers become `Int`/`Nat`; lengths are `Nat`.
* fallible code returns `Except Err _`; recursions that are not structural
  in C++ (merge, getitem, flatten) take an explicit fuel argument, with a
  distinguished `Err.fuelOut` error, so every function is executable.
* the three index widths `i32/u32/i64` of `UnionArrayOf`/`IndexedArrayOf`
  collapse to one constructor, since all index values are modelled as `Int`.
-/

/-- Errors surfaced by the node operations (transport-neutral, §7). -/
inductive Err where
  | invalidArgument (msg : String)
  | runtimeError (msg : String)
  | valueError (msg : String)
  | fuelOut
  deriving Repr, DecidableEq

/-- `util::Parameters`: a string-keyed map, modelled as an association list. -/
abbrev Params := List (String × String)

/-- Modelled from the spec: parameter equality is set-wise
("insertion order irrelevant; equality is set-wise", §9);
`util::parameters_equal` is outside the sampled source. -/
def paramsEqual (a b : Params) : Bool :=
  a.all (fun kv => b.contains kv) && b.all (fun kv => a.contains kv)

/-- The node variants of the sampled source plus the collaborators they
mention.  `numpy` is the 1-D dense leaf (with a boolean-dtype flag, the
only dtype distinction `mergeable(mergebool)` cares about);
`listOffset` is the list layer (needed by flatten); `bitMasked.mask`
holds packed bytes. -/
inductive Content where
  | empty (ps : Params)
  | numpy (ps : Params) (isbool : Bool) (data : List Int)
  | listOffset (ps : Params) (offsets : List Int) (child : Content)
  | indexed (ps : Params) (index : List Int) (child : Content)
  | indexedOption (ps : Params) (index : List Int) (child : Content)
  | byteMasked (ps : Params) (mask : List Int) (validwhen : Bool) (child : Content)
  | bitMasked (ps : Params) (mask : List Nat) (validwhen : Bool) (lsbOrder : Bool)
      (len : Nat) (child : Content)
  | unmasked (ps : Params) (child : Content)
  | record (ps : Params) (contents : List Content) (lookup : Option (List String)) (len : Nat)
  | union (ps : Params) (tags : List Int) (index : List Int) (contents : List Content)
  deriving Repr

/-- `Content::parameters()`. -/
def Content.paramsOf : Content → Params
  | .empty ps => ps
  | .numpy ps _ _ => ps
  | .listOffset ps _ _ => ps
  | .indexed ps _ _ => ps
  | .indexedOption ps _ _ => ps
  | .byteMasked ps _ _ _ => ps
  | .bitMasked ps _ _ _ _ _ => ps
  | .unmasked ps _ => ps
  | .record ps _ _ _ => ps
  | .union ps _ _ _ => ps

/-- `length()` per variant (§3.2). -/
def Content.length : Content → Nat
  | .empty _ => 0
  | .numpy _ _ d => d.length
  | .listOffset _ offs _ => offs.length - 1
  | .indexed _ idx _ => idx.length
  | .indexedOption _ idx _ => idx.length
  | .byteMasked _ m _ _ => m.length
  | .bitMasked _ _ _ _ n _ => n
  | .unmasked _ c => c.length
  | .record _ _ _ n => n
  | .union _ tags _ _ => tags.length

/-- Logical element of a node: missing, an integer leaf value, a list row,
a record row, or invalid (out of bounds / malformed structure). -/
inductive Elem where
  | missing
  | intval (v : Int)
  | listval (xs : List Elem)
  | recval (xs : List Elem)
  | invalid
  deriving Repr

/-- The bit of a packed `BitMasked` mask at logical position `i`. -/
def bitAt (mask : List Nat) (lsbOrder : Bool) (i : Nat) : Bool :=
  (mask.getD (i / 8) 0).testBit (if lsbOrder then i % 8 else 7 - i % 8)

/-- Logical element at position `i` (the denotation used for pointwise
equality claims).  Positions at or beyond `length()` are `invalid`. -/
def Content.getAt : Content → Nat → Elem
  | .empty _, _ => .invalid
  | .numpy _ _ d, i => if h : i < d.length then .intval (d.get ⟨i, h⟩) else .invalid
  | .listOffset _ offs c, i =>
      if i + 1 < offs.length then
        let start := offs.getD i 0
        let stop := offs.getD (i + 1) 0
        if 0 ≤ start ∧ start ≤ stop then
          .listval ((List.range (stop - start).toNat).map
            (fun k => c.getAt (start.toNat + k)))
        else .invalid
      else .invalid
  | .indexed _ idx c, i =>
      if i < idx.length then
        let j := idx.getD i 0
        if 0 ≤ j then c.getAt j.toNat else .invalid
      else .invalid
  | .indexedOption _ idx c, i =>
      if i < idx.length then
        let j := idx.getD i 0
        if j < 0 then .missing else c.getAt j.toNat
      else .invalid
  | .byteMasked _ m vw c, i =>
      if i < m.length then
        if (decide (m.getD i 0 ≠ 0)) ≠ vw then .missing else c.getAt i
      else .invalid
  | .bitMasked _ m vw lsb n c, i =>
      if i < n then
        if bitAt m lsb i ≠ vw then .missing else c.getAt i
      else .invalid
  | .unmasked _ c, i => c.getAt i
  | .record _ cs _ n, i =>
      if i < n then .recval (cs.attach.map (fun x => x.1.getAt i)) else .invalid
  | .union _ tags idx cs, i =>
      if i < tags.length then
        if ht : 0 ≤ tags.getD i 0 ∧ (tags.getD i 0).toNat < cs.length then
          if 0 ≤ idx.getD i 0 then
            (cs.get ⟨(tags.getD i 0).toNat, ht.2⟩).getAt (idx.getD i 0).toNat
          else .invalid
        else .invalid
      else .invalid
  termination_by c _ => sizeOf c
  decreasing_by
    all_goals simp_wf
    · obtain ⟨c, hmem⟩ := x
      have := List.sizeOf_lt_of_mem hmem
      simp only []
      omega
    · have h2 := List.sizeOf_lt_of_mem (List.get_mem cs (tags.getD i 0).toNat ht.2)
      simp only [List.get_eq_getElem, List.getD_eq_getElem?_getD] at h2 ⊢
      omega

/-- Pointwise equality of two nodes: same length and same logical element
at every position. -/
def pointwiseEq (a b : Content) : Prop :=
  a.length = b.length ∧ ∀ i, a.getAt i = b.getAt i

/-- `[0, 1, ..., n-1]` as an `Index64` (kernel `awkward_carry_arange_64`). -/
def arangeN (n : Nat) : List Int := (List.range n).map Int.ofNat

/-- The `UnionArrayOf` constructor checks (UnionArray.cpp, constructor). -/
def mkUnion (ps : Params) (tags index : List Int) (contents : List Content) :
    Except Err Content :=
  if contents.isEmpty then
    .error (.invalidArgument "UnionArray must have at least one content")
  else if index.length < tags.length then
    .error (.invalidArgument "UnionArray index must not be shorter than its tags")
  else .ok (.union ps tags index contents)

/-- Modelled from the spec: `Content::merge_as_union` (outside the sampled
source) wraps both operands in a two-arm `Union<i8,i64>` with identity
index (§4.6 step 1). -/
def mergeAsUnion (self other : Content) : Content :=
  .union []
    (List.replicate self.length (0 : Int) ++ List.replicate other.length (1 : Int))
    (arangeN self.length ++ arangeN other.length)
    [self, other]

/-- Modelled from the spec: an `Index` window slice must satisfy
`offset + length ≤ block_size` (§3.1), so an out-of-bounds window is an
error. -/
def sliceList (xs : List Int) (start stop : Nat) : Except Err (List Int) :=
  if start ≤ stop ∧ stop ≤ xs.length then .ok ((xs.drop start).take (stop - start))
  else .error (.valueError "index window out of range")

/-- The `IndexedOption64` index materialized from a byte mask: `-1` where
missing, `k` otherwise (§4.3). -/
def ioaIndexOfByteMask (mask : List Int) (vw : Bool) : List Int :=
  (List.range mask.length).map
    (fun i => if (decide (mask.getD i 0 ≠ 0)) ≠ vw then (-1 : Int) else (i : Int))

/-- The `IndexedOption64` index materialized from a packed bit mask. -/
def ioaIndexOfBitMask (mask : List Nat) (vw lsb : Bool) (n : Nat) : List Int :=
  (List.range n).map
    (fun i => if bitAt mask lsb i ≠ vw then (-1 : Int) else (i : Int))

/-- `UnmaskedArray::toIndexedOptionArray64` (UnmaskedArray.cpp lines 76-87):
index is `arange(length)`. -/
def unmaskedToIOA64 (ps : Params) (child : Content) : Content :=
  .indexedOption ps (arangeN child.length) child

/-- Modelled from the spec: `ByteMaskedArray::toIndexedOptionArray64`
(outside the sampled source), §4.3. -/
def byteMaskedToIOA64 (ps : Params) (mask : List Int) (vw : Bool) (child : Content) :
    Content :=
  .indexedOption ps (ioaIndexOfByteMask mask vw) child

/-- Modelled from the spec: `BitMaskedArray::toIndexedOptionArray64`
(outside the sampled source), §4.3. -/
def bitMaskedToIOA64 (ps : Params) (mask : List Nat) (vw lsb : Bool) (n : Nat)
    (child : Content) : Content :=
  .indexedOption ps (ioaIndexOfBitMask mask vw lsb n) child

/-- Modelled from the spec (§4.3): view an option-or-indexed node as a
64-bit index over its child, materializing masks. -/
def asIndexedOption64 : Content → Option (Params × List Int × Content)
  | .indexed ps idx c => some (ps, idx, c)
  | .indexedOption ps idx c => some (ps, idx, c)
  | .byteMasked ps m vw c => some (ps, ioaIndexOfByteMask m vw, c)
  | .bitMasked ps m vw lsb n c => some (ps, ioaIndexOfBitMask m vw lsb n, c)
  | .unmasked ps c => some (ps, arangeN c.length, c)
  | _ => none

/-- Index composition of two option layers: outer `-1` stays `-1`,
otherwise gather the inner index (§4.3). -/
def composeIOA (outer inner : List Int) : List Int :=
  outer.map (fun o => if o < 0 then (-1 : Int) else inner.getD o.toNat 0)

/-- `simplify_optiontype`.  The `UnmaskedArray` case translates
UnmaskedArray.cpp lines 59-74; the other option variants are outside the
sampled source and are modelled from the spec (§4.3). -/
def Content.simplifyOptiontype : Content → Content
  | .unmasked ps child =>
      match child with
      | .indexed _ _ _ | .indexedOption _ _ _ | .byteMasked _ _ _ _
      | .bitMasked _ _ _ _ _ _ | .unmasked _ _ => child
      | _ => .unmasked ps child
  | .indexedOption ps idx child =>
      match asIndexedOption64 child with
      | some (_, inner, c2) => .indexedOption ps (composeIOA idx inner) c2
      | none => .indexedOption ps idx child
  | .byteMasked ps mask vw child =>
      match asIndexedOption64 child with
      | some (_, inner, c2) =>
          .indexedOption ps (composeIOA (ioaIndexOfByteMask mask vw) inner) c2
      | none => .byteMasked ps mask vw child
  | .bitMasked ps mask vw lsb n child =>
      match asIndexedOption64 child with
      | some (_, inner, c2) =>
          .indexedOption ps (composeIOA (ioaIndexOfBitMask mask vw lsb n) inner) c2
      | none => .bitMasked ps mask vw lsb n child
  | c => c

/-- kernel `awkward_index_carry_64` (§6.1): gather with a bounds check on
every carry entry. -/
def carryIndexChecked (xs : List Int) (cr : List Int) : Except Err (List Int) :=
  cr.mapM (fun k =>
    if 0 ≤ k ∧ k < (xs.length : Int) then .ok (xs.getD k.toNat 0)
    else .error (.valueError "index out of range"))

/-- kernel `awkward_index_carry_nocheck_64` (§6.1): unchecked gather;
out-of-domain reads are modelled as 0. -/
def carryIndexNocheck (xs : List Int) (cr : List Int) : List Int :=
  cr.map (fun k => if 0 ≤ k then xs.getD k.toNat 0 else 0)

/-- `carry` (§4.5).  The `union` case translates UnionArray.cpp lines
827-864, the `record` case RecordArray.cpp lines 444-459, the `unmasked`
case UnmaskedArray.cpp lines 365-374; the remaining variants are outside
the sampled source and are modelled from the spec (`Numpy` gathers the
buffer, `Indexed*` composes indices, masked variants gather mask and
child, `List*` converts to Indexed semantics). -/
def Content.carry : Content → List Int → Except Err Content
  | .empty ps, _ => .ok (.empty ps)
  | .numpy ps b d, cr => do
      let vals ← carryIndexChecked d cr
      .ok (.numpy ps b vals)
  | .listOffset ps offs c, cr =>
      if cr.all (fun k => 0 ≤ k ∧ k < ((offs.length - 1 : Nat) : Int)) then
        .ok (.indexed ps cr (.listOffset ps offs c))
      else .error (.valueError "index out of range")
  | .indexed ps idx c, cr => do
      let idx2 ← carryIndexChecked idx cr
      .ok (.indexed ps idx2 c)
  | .indexedOption ps idx c, cr => do
      let idx2 ← carryIndexChecked idx cr
      .ok (.indexedOption ps idx2 c)
  | .byteMasked ps m vw c, cr => do
      let m2 ← carryIndexChecked m cr
      let c2 ← c.carry cr
      .ok (.byteMasked ps m2 vw c2)
  | .bitMasked ps m vw lsb n c, cr => do
      let m2 ← carryIndexChecked ((List.range n).map
        (fun i => if bitAt m lsb i then (1 : Int) else 0)) cr
      let c2 ← c.carry cr
      .ok (.byteMasked ps m2 vw c2)
  | .unmasked ps c, cr => do
      let c2 ← c.carry cr
      .ok (.unmasked ps c2)
  | .record ps cs lk _, cr => do
      let cs2 ← cs.attach.mapM (fun x => x.1.carry cr)
      .ok (.record ps cs2 lk cr.length)
  | .union ps tags idx cs, cr =>
      if idx.length < tags.length then .error (.valueError "len(index) < len(tags)")
      else do
        let t2 ← carryIndexChecked tags cr
        .ok (.union ps t2 (carryIndexNocheck idx cr) cs)
  termination_by c _ => sizeOf c
  decreasing_by
    all_goals simp_wf
    · obtain ⟨c, hmem⟩ := x
      have := List.sizeOf_lt_of_mem hmem
      simp only []
      omega

/-- `getitem_range_nowrap`.  The `record` case translates RecordArray.cpp
lines 398-418, the `union` case UnionArray.cpp lines 732-745, the
`unmasked` case UnmaskedArray.cpp lines 296-306; the remaining variants
are outside the sampled source and are modelled from the spec (§3.4 O(1)
window slicing; `Empty` stays empty). -/
def Content.getitemRangeNowrap : Content → Nat → Nat → Except Err Content
  | .empty ps, _, _ => .ok (.empty ps)
  | .numpy ps b d, s, e => do
      .ok (.numpy ps b (← sliceList d s e))
  | .listOffset ps offs c, s, e => do
      .ok (.listOffset ps (← sliceList offs s (e + 1)) c)
  | .indexed ps idx c, s, e => do
      .ok (.indexed ps (← sliceList idx s e) c)
  | .indexedOption ps idx c, s, e => do
      .ok (.indexedOption ps (← sliceList idx s e) c)
  | .byteMasked ps m vw c, s, e => do
      .ok (.byteMasked ps (← sliceList m s e) vw (← c.getitemRangeNowrap s e))
  | .bitMasked ps m vw lsb n c, s, e => do
      let bytes := (List.range n).map (fun i => if bitAt m lsb i then (1 : Int) else 0)
      .ok (.byteMasked ps (← sliceList bytes s e) vw (← c.getitemRangeNowrap s e))
  | .unmasked ps c, s, e => do
      .ok (.unmasked ps (← c.getitemRangeNowrap s e))
  | .record ps cs lk _, s, e =>
      if cs.isEmpty then .ok (.record ps cs lk (e - s))
      else do
        let cs2 ← cs.attach.mapM (fun x => x.1.getitemRangeNowrap s e)
        .ok (.record ps cs2 lk (e - s))
  | .union ps tags idx cs, s, e => do
      .ok (.union ps (← sliceList tags s e) (← sliceList idx s e) cs)
  termination_by c _ _ => sizeOf c
  decreasing_by
    all_goals simp_wf
    · obtain ⟨c, hmem⟩ := x
      have := List.sizeOf_lt_of_mem hmem
      simp only []
      omega

/-- kernel `awkward_regularize_rangeslice` for a positive unit step with
both endpoints given: wrap negatives, clamp into `[0, length]`, and clamp
`stop` up to `start` (§6.1). -/
def regularizeRangeslice (start stop : Int) (length : Nat) : Nat × Nat :=
  let s0 := if start < 0 then start + length else start
  let s : Nat := min s0.toNat length
  let e0 := if stop < 0 then stop + length else stop
  let e : Nat := min e0.toNat length
  (s, max s e)

/-- `getitem_range` (regularize, then the nowrap slice); the identities
bound check is omitted with the identities themselves. -/
def Content.getitemRange (c : Content) (start stop : Int) : Except Err Content :=
  let se := regularizeRangeslice start stop c.length
  c.getitemRangeNowrap se.1 se.2

/-- `minlength` (RecordArray.cpp lines 39-53); the `-1` sentinel of the
source becomes `none`. -/
def minlength (contents : List Content) : Nat :=
  match contents with
  | [] => 0
  | _ => (contents.foldl
      (fun out x =>
        match out with
        | none => some x.length
        | some o => if o > x.length then some x.length else some o)
      none).getD 0

/-- The four-argument `RecordArray` factory (RecordArray.cpp lines 55-63):
the length is `minlength(contents)`. -/
def mkRecord (ps : Params) (contents : List Content) (lookup : Option (List String)) :
    Content :=
  .record ps contents lookup (minlength contents)

/-- Modelled from the spec: `util::fieldindex` (outside the sampled
source): named records search the lookup, tuples parse the key as a
position. -/
def fieldindexOf (lookup : Option (List String)) (key : String) (numfields : Nat) :
    Except Err Nat :=
  match lookup with
  | some l =>
      match l.indexOf? key with
      | some i => .ok i
      | none => .error (.invalidArgument "key not found in record")
  | none =>
      match key.toNat? with
      | some i =>
          if i < numfields then .ok i
          else .error (.invalidArgument "fieldindex out of range for record")
      | none => .error (.invalidArgument "key is not an integer and record is a tuple")

/-- Modelled from the spec: `util::keys`: the lookup when present,
fabricated positional names otherwise (§6.2). -/
def keysOf (lookup : Option (List String)) (numfields : Nat) : List String :=
  match lookup with
  | some l => l
  | none => (List.range numfields).map (fun i => toString i)

/-- `RecordArray::field` with the fieldindex bound check. -/
def recordField (contents : List Content) (lookup : Option (List String))
    (key : String) : Except Err Content :=
  match fieldindexOf lookup key contents.length with
  | .ok i =>
      if h : i < contents.length then .ok (contents.get ⟨i, h⟩)
      else .error (.invalidArgument "fieldindex out of range for record")
  | .error e => .error e

/-- Insertion sort on strings (for the set-wise key comparison of
`RecordArray::merge`). -/
def insertStr (s : String) : List String → List String
  | [] => [s]
  | t :: rest => if s ≤ t then s :: t :: rest else t :: insertStr s rest

/-- Sorted copy of a key list (`std::sort` in RecordArray.cpp). -/
def sortStrs : List String → List String
  | [] => []
  | s :: rest => insertStr s (sortStrs rest)

/-- kernel `awkward_unionarray_regular_index` (modelled from the spec §4.2:
"regular index [0,1,2,…] as tags-aligned"): entry `i` counts the earlier
occurrences of `tags[i]`. -/
def regularIndex (tags : List Int) : List Int :=
  (List.range tags.length).map
    (fun i => (((tags.take i).countP (fun t => t = tags.getD i 0) : Nat) : Int))

/-- kernel `awkward_unionarray_project_64` (modelled from the spec §4.5):
collect `index[m]` at the positions `m` with `tags[m] == which`. -/
def projectCarryKernel (tags index : List Int) (which : Nat) : List Int :=
  (List.range tags.length).foldl
    (fun acc m =>
      if tags.getD m 0 = (which : Int) then acc ++ [index.getD m 0] else acc)
    []

/-- `UnionArrayOf::project` (UnionArray.cpp lines 126-157). -/
def unionProject (tags index : List Int) (contents : List Content) (which : Nat) :
    Except Err Content :=
  if h : which < contents.length then
    if index.length < tags.length then .error (.valueError "len(index) < len(tags)")
    else (contents.get ⟨which, h⟩).carry (projectCarryKernel tags index which)
  else .error (.invalidArgument "index out of range for UnionArray")

/-- kernel `awkward_unionarray_simplify_one_to8_64` (modelled from the spec
§4.4): rows with `fromtags[m] == fromwhich` remap to canonical arm
`towhich` with index offset by `base`. -/
def simplifyOneKernel (totags toindex fromtags fromindex : List Int)
    (towhich fromwhich base : Nat) : List Int × List Int :=
  ((List.range totags.length).map (fun m =>
      if fromtags.getD m 0 = (fromwhich : Int) then (towhich : Int)
      else totags.getD m 0),
   (List.range toindex.length).map (fun m =>
      if fromtags.getD m 0 = (fromwhich : Int) then fromindex.getD m 0 + (base : Int)
      else toindex.getD m 0))

/-- kernels `awkward_unionarray_simplify8_{32,U32,64}_to8_64` (modelled
from the spec §4.4): rows where the outer tag is `outerwhich` and the
inner tag at `outerindex[m]` is `innerwhich` remap to canonical arm
`towhich` with the composed inner index offset by `base`. -/
def simplifyNestedKernel (totags toindex outertags outerindex innertags innerindex : List Int)
    (towhich innerwhich outerwhich base : Nat) : List Int × List Int :=
  ((List.range totags.length).map (fun m =>
      if outertags.getD m 0 = (outerwhich : Int) ∧ 0 ≤ outerindex.getD m 0 ∧
         innertags.getD (outerindex.getD m 0).toNat 0 = (innerwhich : Int)
      then (towhich : Int) else totags.getD m 0),
   (List.range toindex.length).map (fun m =>
      if outertags.getD m 0 = (outerwhich : Int) ∧ 0 ≤ outerindex.getD m 0 ∧
         innertags.getD (outerindex.getD m 0).toNat 0 = (innerwhich : Int)
      then innerindex.getD (outerindex.getD m 0).toNat 0 + (base : Int)
      else toindex.getD m 0))

/-- `mergeable(other, mergebool)`.  `union`: UnionArray.cpp lines
1146-1154 (parameters only); `record`: RecordArray.cpp lines 632-709;
`unmasked`: UnmaskedArray.cpp lines 481-529.  The other variants are
outside the sampled source and are modelled from the spec (§4.4: the
predicate is parameter-aware; E4: a bool leaf merges with a non-bool leaf
only under `mergebool`); they follow the unwrap pattern of the sampled
variants. -/
def mergeableF : Nat → Content → Content → Bool → Except Err Bool
  | 0, _, _, _ => .error .fuelOut
  | fuel+1, self, other, mb =>
    match self with
    | .union _ _ _ _ => .ok (paramsEqual self.paramsOf other.paramsOf)
    | .empty _ => .ok true
    | .record ps cs lk len =>
        if ¬ paramsEqual ps other.paramsOf then .ok false
        else
          match other with
          | .empty _ | .union _ _ _ _ => .ok true
          | .indexed _ _ c2 | .indexedOption _ _ c2 | .byteMasked _ _ _ c2
          | .bitMasked _ _ _ _ _ c2 | .unmasked _ c2 =>
              mergeableF fuel (.record ps cs lk len) c2 mb
          | .record _ cs2 lk2 _ =>
              if lk.isNone ∧ lk2.isNone then
                if cs.length = cs2.length then
                  (cs.zip cs2).foldlM
                    (fun acc p => if acc then mergeableF fuel p.1 p.2 mb else .ok false)
                    true
                else .ok false
              else if lk.isSome ∧ lk2.isSome then
                if sortStrs (keysOf lk cs.length) = sortStrs (keysOf lk2 cs2.length) then
                  (sortStrs (keysOf lk cs.length)).foldlM
                    (fun acc key =>
                      if acc then do
                        let f1 ← recordField cs lk key
                        let f2 ← recordField cs2 lk2 key
                        mergeableF fuel f1 f2 mb
                      else .ok false)
                    true
                else .ok false
              else .ok false
          | _ => .ok false
    | .unmasked _ c =>
        if ¬ paramsEqual self.paramsOf other.paramsOf then .ok false
        else
          match other with
          | .empty _ | .union _ _ _ _ => .ok true
          | .indexed _ _ c2 | .indexedOption _ _ c2 | .byteMasked _ _ _ c2
          | .bitMasked _ _ _ _ _ c2 | .unmasked _ c2 => mergeableF fuel c c2 mb
          | _ => mergeableF fuel c other mb
    | .indexed _ _ c | .indexedOption _ _ c | .byteMasked _ _ _ c
    | .bitMasked _ _ _ _ _ c =>
        if ¬ paramsEqual self.paramsOf other.paramsOf then .ok false
        else
          match other with
          | .empty _ | .union _ _ _ _ => .ok true
          | .indexed _ _ c2 | .indexedOption _ _ c2 | .byteMasked _ _ _ c2
          | .bitMasked _ _ _ _ _ c2 | .unmasked _ c2 => mergeableF fuel c c2 mb
          | _ => mergeableF fuel c other mb
    | .numpy ps b d =>
        if ¬ paramsEqual ps other.paramsOf then .ok false
        else
          match other with
          | .empty _ | .union _ _ _ _ => .ok true
          | .indexed _ _ c2 | .indexedOption _ _ c2 | .byteMasked _ _ _ c2
          | .bitMasked _ _ _ _ _ c2 | .unmasked _ c2 =>
              mergeableF fuel (.numpy ps b d) c2 mb
          | .numpy _ b2 _ => .ok (b == b2 || mb)
          | _ => .ok false
    | .listOffset ps offs c =>
        if ¬ paramsEqual ps other.paramsOf then .ok false
        else
          match other with
          | .empty _ | .union _ _ _ _ => .ok true
          | .indexed _ _ c2 | .indexedOption _ _ c2 | .byteMasked _ _ _ c2
          | .bitMasked _ _ _ _ _ c2 | .unmasked _ c2 =>
              mergeableF fuel (.listOffset ps offs c) c2 mb
          | .listOffset _ _ c2 => mergeableF fuel c c2 mb
          | _ => .ok false

/-- The tag/index/content buffers built by `UnionArrayOf::merge`
(UnionArray.cpp lines 1247-1395); the fill kernels are modelled from the
spec (§4.6 step 5: the second operand's tags are rebased by
`numcontents()`).  Only the first `len(tags)` entries of the union's own
index take part. -/
def unionMergeParts (tags idx : List Int) (cs : List Content) (other : Content) :
    List Int × List Int × List Content :=
  match other with
  | .union _ t2 x2 cs2 =>
      (tags ++ t2.map (fun t => t + (cs.length : Int)),
       idx.take tags.length ++ x2.take t2.length,
       cs ++ cs2)
  | _ =>
      (tags ++ List.replicate other.length (cs.length : Int),
       idx.take tags.length ++ arangeN other.length,
       cs ++ [other])

/-- `UnionArrayOf::reverse_merge` (UnionArray.cpp lines 1156-1234); the
fill kernels are modelled from the spec: arm 0 is `other` with identity
index, arms 1..N are the union's own arms with tags shifted by one. -/
def unionReverseMerge (tags idx : List Int) (cs : List Content) (other : Content) :
    Except Err Content :=
  let contents := other :: cs
  let outtags := List.replicate other.length (0 : Int) ++ tags.map (fun t => t + 1)
  let outindex := arangeN other.length ++ idx.take tags.length
  if contents.length > 127 then
    .error (.runtimeError "FIXME: handle UnionArray with more than 127 contents")
  else mkUnion [] outtags outindex contents

mutual

/-- `merge(other)`.  `union`: UnionArray.cpp lines 1236-1407; `record`:
RecordArray.cpp lines 711-822; `unmasked`: UnmaskedArray.cpp lines
539-542.  The variants outside the sampled source are modelled from the
spec (§4.6 steps 1-6; masked options merge through their
`IndexedOption64` view like `Unmasked` does; a variant pair without a
concatenation rule is a type error). -/
def mergeF : Nat → Content → Content → Except Err Content
  | 0, _, _ => .error .fuelOut
  | fuel+1, self, other =>
    match self with
    | .empty _ => .ok other
    | .union ps tags idx cs =>
        if ¬ paramsEqual ps other.paramsOf then .ok (mergeAsUnion self other)
        else
          match other with
          | .empty _ => .ok self
          | _ =>
              let parts := unionMergeParts tags idx cs other
              if parts.2.2.length > 127 then
                .error (.runtimeError "FIXME: handle UnionArray with more than 127 contents")
              else mkUnion [] parts.1 parts.2.1 parts.2.2
    | .record ps cs lk len =>
        if ¬ paramsEqual ps other.paramsOf then .ok (mergeAsUnion self other)
        else
          match other with
          | .empty _ => .ok self
          | .indexed _ _ _ | .indexedOption _ _ _ | .byteMasked _ _ _ _
          | .bitMasked _ _ _ _ _ _ | .unmasked _ _ | .union _ _ _ _ =>
              reverseMergeF fuel other self
          | .record _ cs2 lk2 len2 =>
              if lk.isNone = lk2.isNone ∧ cs.length = 0 ∧ cs2.length = 0 then
                .ok (.record [] cs none (len + len2))
              else if lk.isNone ∧ lk2.isNone then
                if cs.length = cs2.length then do
                  let merged ← (cs.zip cs2).mapM (fun p => do
                      let mine ← p.1.getitemRangeNowrap 0 len
                      let theirs ← p.2.getitemRangeNowrap 0 len2
                      mergeF fuel mine theirs)
                  .ok (mkRecord [] merged lk)
                else
                  .error (.invalidArgument
                    "cannot merge records or tuples with different fields")
              else if lk.isSome ∧ lk2.isSome then
                if sortStrs (keysOf lk cs.length) = sortStrs (keysOf lk2 cs2.length) then do
                  let merged ← (keysOf lk cs.length).mapM (fun key => do
                      let f1 ← recordField cs lk key
                      let f2 ← recordField cs2 lk2 key
                      let mine ← f1.getitemRangeNowrap 0 len
                      let theirs ← f2.getitemRangeNowrap 0 len2
                      mergeF fuel mine theirs)
                  .ok (mkRecord [] merged lk)
                else
                  .error (.invalidArgument
                    "cannot merge records or tuples with different fields")
              else
                .error (.invalidArgument
                  "cannot merge records or tuples with different fields")
          | _ => .error (.invalidArgument "cannot merge RecordArray with this variant")
    | .unmasked ps c => mergeF fuel (unmaskedToIOA64 ps c) other
    | .byteMasked ps m vw c => mergeF fuel (byteMaskedToIOA64 ps m vw c) other
    | .bitMasked ps m vw lsb n c => mergeF fuel (bitMaskedToIOA64 ps m vw lsb n c) other
    | .numpy ps b d =>
        if ¬ paramsEqual ps other.paramsOf then .ok (mergeAsUnion self other)
        else
          match other with
          | .empty _ => .ok self
          | .indexed _ _ _ | .indexedOption _ _ _ | .byteMasked _ _ _ _
          | .bitMasked _ _ _ _ _ _ | .unmasked _ _ | .union _ _ _ _ =>
              reverseMergeF fuel other self
          | .numpy _ b2 d2 =>
              if b = b2 then .ok (.numpy ps b (d ++ d2))
              else .error (.invalidArgument "cannot merge a bool leaf with a non-bool leaf")
          | _ => .error (.invalidArgument "cannot merge NumpyArray with this variant")
    | .indexed ps _ _ =>
        if ¬ paramsEqual ps other.paramsOf then .ok (mergeAsUnion self other)
        else
          match other with
          | .empty _ => .ok self
          | .indexed _ _ _ | .indexedOption _ _ _ | .byteMasked _ _ _ _
          | .bitMasked _ _ _ _ _ _ | .unmasked _ _ | .union _ _ _ _ =>
              reverseMergeF fuel other self
          | _ => .error (.invalidArgument "cannot merge IndexedArray with this variant")
    | .indexedOption ps _ _ =>
        if ¬ paramsEqual ps other.paramsOf then .ok (mergeAsUnion self other)
        else
          match other with
          | .empty _ => .ok self
          | .indexed _ _ _ | .indexedOption _ _ _ | .byteMasked _ _ _ _
          | .bitMasked _ _ _ _ _ _ | .unmasked _ _ | .union _ _ _ _ =>
              reverseMergeF fuel other self
          | _ => .error (.invalidArgument "cannot merge IndexedOptionArray with this variant")
    | .listOffset ps _ _ =>
        if ¬ paramsEqual ps other.paramsOf then .ok (mergeAsUnion self other)
        else
          match other with
          | .empty _ => .ok self
          | .indexed _ _ _ | .indexedOption _ _ _ | .byteMasked _ _ _ _
          | .bitMasked _ _ _ _ _ _ | .unmasked _ _ | .union _ _ _ _ =>
              reverseMergeF fuel other self
          | _ => .error (.invalidArgument "cannot merge ListOffsetArray with this variant")

/-- `reverse_merge(other)` (`self` is the right operand).  `union`:
UnionArray.cpp lines 1156-1234; `unmasked`: UnmaskedArray.cpp lines
531-537 (through the `IndexedOption64` view).  The option variants
outside the sampled source are modelled from the spec (§4.6: they emit a
`Union<i8,i64>` whose arm 0 is `other` and whose remaining arm is
`self`). -/
def reverseMergeF : Nat → Content → Content → Except Err Content
  | 0, _, _ => .error .fuelOut
  | fuel+1, self, other =>
    match self with
    | .union _ tags idx cs => unionReverseMerge tags idx cs other
    | .unmasked ps c => reverseMergeF fuel (unmaskedToIOA64 ps c) other
    | .byteMasked ps m vw c => reverseMergeF fuel (byteMaskedToIOA64 ps m vw c) other
    | .bitMasked ps m vw lsb n c =>
        reverseMergeF fuel (bitMaskedToIOA64 ps m vw lsb n c) other
    | .indexedOption ps idx c =>
        .ok (.union []
          (List.replicate other.length (0 : Int) ++ List.replicate idx.length (1 : Int))
          (arangeN other.length ++ arangeN idx.length)
          [other, .indexedOption ps idx c])
    | .indexed ps idx c =>
        .ok (.union []
          (List.replicate other.length (0 : Int) ++ List.replicate idx.length (1 : Int))
          (arangeN other.length ++ arangeN idx.length)
          [other, .indexed ps idx c])
    | _ => .error (.invalidArgument "undefined operation: reverse_merge")

end

/-- The "find a mergeable canonical arm" inner loop of
`simplify_uniontype` (§4.4 step 1): the position `k` of the first
canonical arm mergeable with `arm`, its length before merging (the
kernel `base`), and the canonical list with that arm merged; `none`
when no canonical arm is mergeable. -/
def simplifyMergeInto (fuel : Nat) (mb : Bool) (arm : Content) :
    List Content → Except Err (Option (Nat × Nat × List Content))
  | [] => .ok none
  | c :: rest => do
      if (← mergeableF fuel c arm mb) then
        let m ← mergeF fuel c arm
        .ok (some (0, c.length, m :: rest))
      else
        match (← simplifyMergeInto fuel mb arm rest) with
        | some kbl => .ok (some (kbl.1 + 1, kbl.2.1, c :: kbl.2.2))
        | none => .ok none

/-- One non-union arm step of `simplify_uniontype` (UnionArray.cpp lines
339-377). -/
def simplifyStepOne (fuel : Nat) (mb : Bool) (selfTags selfIndex : List Int)
    (i : Nat) (arm : Content) (st : List Int × List Int × List Content) :
    Except Err (List Int × List Int × List Content) := do
  match (← simplifyMergeInto fuel mb arm st.2.2) with
  | some kbl =>
      let p := simplifyOneKernel st.1 st.2.1 selfTags selfIndex kbl.1 i kbl.2.1
      .ok (p.1, p.2, kbl.2.2)
  | none =>
      let p := simplifyOneKernel st.1 st.2.1 selfTags selfIndex st.2.2.length i 0
      .ok (p.1, p.2, st.2.2 ++ [arm])

/-- The inner-arm loop for a nested-union arm of `simplify_uniontype`
(UnionArray.cpp lines 174-338; the three inner index widths collapse to
one case). -/
def simplifyStepInner (fuel : Nat) (mb : Bool)
    (selfTags selfIndex innertags innerindex : List Int) (i : Nat) :
    Nat → List Content → (List Int × List Int × List Content) →
    Except Err (List Int × List Int × List Content)
  | _, [], st => .ok st
  | j, inner :: rest, st => do
      let st2 ← (do
        match (← simplifyMergeInto fuel mb inner st.2.2) with
        | some kbl =>
            let p := simplifyNestedKernel st.1 st.2.1 selfTags selfIndex
              innertags innerindex kbl.1 j i kbl.2.1
            pure (p.1, p.2, kbl.2.2)
        | none =>
            let p := simplifyNestedKernel st.1 st.2.1 selfTags selfIndex
              innertags innerindex st.2.2.length j i 0
            pure (p.1, p.2, st.2.2 ++ [inner]))
      simplifyStepInner fuel mb selfTags selfIndex innertags innerindex i (j + 1) rest st2

/-- The outer arm loop of `simplify_uniontype` (UnionArray.cpp lines
173-378). -/
def simplifyLoop (fuel : Nat) (mb : Bool) (selfTags selfIndex : List Int) :
    Nat → List Content → (List Int × List Int × List Content) →
    Except Err (List Int × List Int × List Content)
  | _, [], st => .ok st
  | i, arm :: rest, st => do
      let st2 ←
        match arm with
        | .union _ innertags innerindex innercontents =>
            simplifyStepInner fuel mb selfTags selfIndex innertags innerindex i
              0 innercontents st
        | _ => simplifyStepOne fuel mb selfTags selfIndex i arm st
      simplifyLoop fuel mb selfTags selfIndex (i + 1) rest st2

/-- `UnionArrayOf::simplify_uniontype(mergebool)` (UnionArray.cpp lines
159-395); the freshly allocated output buffers are modelled as zeros;
on a non-union node the simplification is the identity
(`shallow_simplify` of other variants does not reach this code). -/
def Content.simplifyUniontype (fuel : Nat) : Content → Bool → Except Err Content
  | .union ps tags index contents, mb =>
      if index.length < tags.length then .error (.valueError "len(index) < len(tags)")
      else do
        let st ← simplifyLoop fuel mb tags index 0 contents
            (List.replicate tags.length 0, List.replicate tags.length 0, [])
        if st.2.2.length > 127 then
          .error (.runtimeError "FIXME: handle UnionArray with more than 127 contents")
        else if st.2.2.length = 1 then
          (st.2.2.headD (.empty [])).carry st.2.1
        else mkUnion ps st.1 st.2.1 st.2.2
  | c, _ => .ok c

/-- The slice items threaded by `getitem_next` (§4.1); `Ellipsis`,
`NewAxis` and `Missing` expand through Content-level handlers outside the
sampled source and outside the claims, so they are not modelled.  The
jagged payload is kept opaque (offsets and a flat inner index). -/
inductive SliceItem where
  | sliceAt (i : Int)
  | sliceRange (start stop step : Int)
  | sliceArray64 (index : List Int)
  | sliceJagged64 (offsets flat : List Int)
  | sliceField (key : String)
  | sliceFields (keys : List String)
  deriving Repr

/-- The element-addressing heads of §4.2 (`At`, `Range`, `Array`,
`Jagged`), i.e. the four dynamic casts of UnionArray.cpp lines 784-787. -/
def isElementHead : SliceItem → Bool
  | .sliceAt _ | .sliceRange _ _ _ | .sliceArray64 _ | .sliceJagged64 _ _ => true
  | _ => false

/-- Modelled from the spec: `SliceItem::preserves_type(advanced)`
(outside the sampled source): an integer head collapses the axis, an
advanced array head preserves type only when no advanced index is
active. -/
def preservesType (h : SliceItem) (adv : List Int) : Bool :=
  match h with
  | .sliceAt _ => false
  | .sliceArray64 _ => adv.isEmpty
  | _ => true

/-- `getitem_field`.  `union`: UnionArray.cpp lines 747-759 (parameters
dropped); `record`: RecordArray.cpp lines 420-423; `unmasked`:
UnmaskedArray.cpp lines 308-314.  The other wrappers are outside the
sampled source and are modelled from the spec (project the child; leaves
cannot be sliced by field). -/
def Content.getitemField : Content → String → Except Err Content
  | .union _ tags idx cs, key => do
      let cs2 ← cs.attach.mapM (fun x => x.1.getitemField key)
      mkUnion [] tags idx cs2
  | .record _ cs lk len, key => do
      let f ← recordField cs lk key
      f.getitemRangeNowrap 0 len
  | .unmasked _ c, key => do
      .ok (.unmasked [] (← c.getitemField key))
  | .indexed _ idx c, key => do
      .ok (.indexed [] idx (← c.getitemField key))
  | .indexedOption _ idx c, key => do
      .ok (.indexedOption [] idx (← c.getitemField key))
  | .byteMasked _ m vw c, key => do
      .ok (.byteMasked [] m vw (← c.getitemField key))
  | .bitMasked _ m vw lsb n c, key => do
      .ok (.bitMasked [] m vw lsb n (← c.getitemField key))
  | .listOffset _ offs c, key => do
      .ok (.listOffset [] offs (← c.getitemField key))
  | .empty _, _ => .error (.invalidArgument "cannot slice EmptyArray by field name")
  | .numpy _ _ _, _ => .error (.invalidArgument "cannot slice NumpyArray by field name")
  termination_by c _ => sizeOf c
  decreasing_by
    all_goals simp_wf
    · obtain ⟨c, hmem⟩ := x
      have := List.sizeOf_lt_of_mem hmem
      simp only []
      omega

/-- `getitem_fields`.  `union`: UnionArray.cpp lines 761-774; `record`:
RecordArray.cpp lines 426-442 (a fresh lookup of the selected keys when
named); `unmasked`: UnmaskedArray.cpp lines 316-322; the rest are
modelled from the spec like `getitemField`. -/
def Content.getitemFields : Content → List String → Except Err Content
  | .union _ tags idx cs, keys => do
      let cs2 ← cs.attach.mapM (fun x => x.1.getitemFields keys)
      mkUnion [] tags idx cs2
  | .record ps cs lk len, keys => do
      let sel ← keys.mapM (fun key => do
          let f ← recordField cs lk key
          f.getitemRangeNowrap 0 len)
      .ok (mkRecord ps sel (if lk.isSome then some keys else none))
  | .unmasked _ c, keys => do
      .ok (.unmasked [] (← c.getitemFields keys))
  | .indexed _ idx c, keys => do
      .ok (.indexed [] idx (← c.getitemFields keys))
  | .indexedOption _ idx c, keys => do
      .ok (.indexedOption [] idx (← c.getitemFields keys))
  | .byteMasked _ m vw c, keys => do
      .ok (.byteMasked [] m vw (← c.getitemFields keys))
  | .bitMasked _ m vw lsb n c, keys => do
      .ok (.bitMasked [] m vw lsb n (← c.getitemFields keys))
  | .listOffset _ offs c, keys => do
      .ok (.listOffset [] offs (← c.getitemFields keys))
  | .empty _, _ => .error (.invalidArgument "cannot slice EmptyArray by field name")
  | .numpy _ _ _, _ => .error (.invalidArgument "cannot slice NumpyArray by field name")
  termination_by c _ => sizeOf c
  decreasing_by
    all_goals simp_wf
    · obtain ⟨c, hmem⟩ := x
      have := List.sizeOf_lt_of_mem hmem
      simp only []
      omega

mutual

/-- `getitem_next(head, tail, advanced)` with the head as an
`Option SliceItem` (`none` is the null head: return `shallow_copy`).
`union`: UnionArray.cpp lines 776-825; `record`: RecordArray.cpp lines
1052-1092; `unmasked`: UnmaskedArray.cpp lines 324-363.  The `numpy`
terminal and the option wrappers outside the sampled source are modelled
from the spec (§4.2: a 1-D dense terminal; option layers delegate to the
child, re-wrap and simplify); the list-layer jagged getitem is outside
both the sampled source and the claims and is an error here. -/
def getitemNext : Nat → Content → Option SliceItem → List SliceItem → List Int →
    Except Err Content
  | 0, _, _, _, _ => .error .fuelOut
  | _ + 1, c, none, _, _ => .ok c
  | fuel + 1, c, some h, tail, adv =>
    match c with
    | .union ps tags index contents =>
        if isElementHead h then do
          let outcontents ← (List.range contents.length).mapM (fun i => do
              let p ← unionProject tags index contents i
              getitemNext fuel p (some h) tail adv)
          let u ← mkUnion ps tags (regularIndex tags) outcontents
          u.simplifyUniontype fuel false
        else getitemNextSpecial fuel c h tail adv
    | .record ps cs lk len =>
        match h with
        | .sliceField key => do
            let out ← (Content.record ps cs lk len).getitemField key
            getitemNext fuel out tail.head? tail.tail adv
        | .sliceFields keys => do
            let out ← (Content.record ps cs lk len).getitemFields keys
            getitemNext fuel out tail.head? tail.tail adv
        | _ => do
            let cs2 ← cs.mapM (fun f => getitemNext fuel f (some h) [] adv)
            let ps2 := if preservesType h adv then ps else []
            getitemNext fuel (mkRecord ps2 cs2 lk) tail.head? tail.tail adv
    | .unmasked ps child =>
        if isElementHead h then do
          let r ← getitemNext fuel child (some h) tail adv
          .ok (Content.simplifyOptiontype (.unmasked ps r))
        else getitemNextSpecial fuel c h tail adv
    | .indexed ps idx child =>
        if isElementHead h then do
          let r ← getitemNext fuel child (some h) tail adv
          .ok (Content.simplifyOptiontype (.indexed ps idx r))
        else getitemNextSpecial fuel c h tail adv
    | .indexedOption ps idx child =>
        if isElementHead h then do
          let r ← getitemNext fuel child (some h) tail adv
          .ok (Content.simplifyOptiontype (.indexedOption ps idx r))
        else getitemNextSpecial fuel c h tail adv
    | .byteMasked ps m vw child =>
        if isElementHead h then do
          let r ← getitemNext fuel child (some h) tail adv
          .ok (Content.simplifyOptiontype (.byteMasked ps m vw r))
        else getitemNextSpecial fuel c h tail adv
    | .bitMasked ps m vw lsb n child =>
        if isElementHead h then do
          let r ← getitemNext fuel child (some h) tail adv
          .ok (Content.simplifyOptiontype (.bitMasked ps m vw lsb n r))
        else getitemNextSpecial fuel c h tail adv
    | .numpy ps b d =>
        match h with
        | .sliceAt i =>
            let j := if i < 0 then i + d.length else i
            if 0 ≤ j ∧ j < (d.length : Int) then
              if tail.isEmpty then .ok (.numpy ps b [d.getD j.toNat 0])
              else .error (.invalidArgument "too many dimensions in slice")
            else .error (.valueError "index out of range")
        | .sliceRange s e st =>
            if st = 1 then
              if tail.isEmpty then
                let se := regularizeRangeslice s e d.length
                .ok (.numpy ps b ((d.drop se.1).take (se.2 - se.1)))
              else .error (.invalidArgument "too many dimensions in slice")
            else .error (.valueError "only unit range steps are modelled")
        | .sliceArray64 js =>
            if tail.isEmpty then do
              let vals ← carryIndexChecked d
                (js.map (fun k => if k < 0 then k + d.length else k))
              .ok (.numpy ps b vals)
            else .error (.invalidArgument "too many dimensions in slice")
        | .sliceJagged64 _ _ => .error (.invalidArgument "too many dimensions in slice")
        | _ => getitemNextSpecial fuel c h tail adv
    | .listOffset _ _ _ =>
        if isElementHead h then
          .error (.valueError "list-layer getitem is outside the sampled source")
        else getitemNextSpecial fuel c h tail adv
    | .empty _ =>
        if isElementHead h then .error (.valueError "array is empty")
        else getitemNextSpecial fuel c h tail adv
  termination_by fuel _ _ _ _ => (fuel, 0)

/-- The Content-level shared handler for `Field`/`Fields` heads
(modelled from the spec §4.2: project, then continue with the tail). -/
def getitemNextSpecial (fuel : Nat) (c : Content) (h : SliceItem)
    (tail : List SliceItem) (adv : List Int) : Except Err Content :=
  match h with
  | .sliceField key => do
      let o ← c.getitemField key
      getitemNext fuel o tail.head? tail.tail adv
  | .sliceFields keys => do
      let o ← c.getitemFields keys
      getitemNext fuel o tail.head? tail.tail adv
  | _ => .error (.runtimeError "unrecognized slice type")
  termination_by (fuel, 1)

end

/-- The union flatten kernels `awkward_unionarray_flatten_length_64` and
`awkward_unionarray_flatten_combine_64` (modelled from the spec §4.7/E5):
row `r` with tag `t` and index `j` contributes the inner positions
`offsets_t[j] .. offsets_t[j+1])` of arm `t`; `tooffsets` is the running
row-count prefix sum. -/
def unionFlattenCombine (tags index : List Int) (offs : List (List Int)) :
    List Int × List Int × List Int :=
  let rowsOf : Nat → List (Int × Int) := fun r =>
    let t := tags.getD r 0
    let o := offs.getD t.toNat []
    let j := index.getD r 0
    let a := o.getD j.toNat 0
    let b := o.getD (j.toNat + 1) 0
    (List.range (b - a).toNat).map (fun k => (t, a + k))
  let rows := (List.range tags.length).map rowsOf
  let flat := rows.flatten
  (flat.map Prod.fst, flat.map Prod.snd,
   (List.range (tags.length + 1)).map
     (fun r => ((((rows.take r).map List.length).sum : Nat) : Int)))

mutual

/-- `offsets_and_flattened(axis, depth)` (flatten one list axis, §4.7).
`record`: RecordArray.cpp lines 599-630; `union`: UnionArray.cpp lines
1073-1144 (note `has_offsets` is reassigned every iteration, so only the
last arm decides it); `unmasked`: UnmaskedArray.cpp lines 457-479.  The
variants outside the sampled source are modelled from the spec (§4.7: a
list layer returns its offsets and its child; option layers push the
call through and propagate non-empty offsets; the leaf rejects any
deeper axis); negative axes are outside the model, so
`axis_wrap_if_negative` is the identity. -/
def offsetsAndFlattened : Nat → Content → Nat → Nat → Except Err (List Int × Content)
  | 0, _, _, _ => .error .fuelOut
  | fuel + 1, c, axis, depth =>
    match c with
    | .record _ cs lk len =>
        if axis = depth then .error (.invalidArgument "axis=0 not allowed for flatten")
        else if axis = depth + 1 then
          .error (.invalidArgument
            "arrays of records cannot be flattened (but their contents can be; try a different axis)")
        else do
          let cs2 ← recordFlattenFields fuel len axis depth cs
          .ok ([], mkRecord [] cs2 lk)
    | .union _ tags index cs =>
        if axis = depth then .error (.invalidArgument "axis=0 not allowed for flatten")
        else do
          let pairs ← cs.attach.mapM (fun x => offsetsAndFlattened fuel x.1 axis depth)
          let hasOffsets :=
            match pairs.getLast? with
            | some p => p.1.length != 0
            | none => false
          if hasOffsets then do
            let comb := unionFlattenCombine tags index (pairs.map Prod.fst)
            let u ← mkUnion [] comb.1 comb.2.1 (pairs.map Prod.snd)
            .ok (comb.2.2, u)
          else do
            let u ← mkUnion [] tags index (pairs.map Prod.snd)
            .ok ([], u)
    | .unmasked _ child =>
        if axis = depth then .error (.invalidArgument "axis=0 not allowed for flatten")
        else do
          let pr ← offsetsAndFlattened fuel child axis depth
          if pr.1.length = 0 then .ok (pr.1, .unmasked [] pr.2)
          else .ok pr
    | .listOffset _ offs child =>
        if axis = depth then .error (.invalidArgument "axis=0 not allowed for flatten")
        else .ok (offs, child)
    | .indexed _ idx child =>
        if axis = depth then .error (.invalidArgument "axis=0 not allowed for flatten")
        else do
          let pr ← offsetsAndFlattened fuel child axis depth
          if pr.1.length = 0 then .ok ([], .indexed [] idx pr.2)
          else .ok pr
    | .indexedOption _ idx child =>
        if axis = depth then .error (.invalidArgument "axis=0 not allowed for flatten")
        else do
          let pr ← offsetsAndFlattened fuel child axis depth
          if pr.1.length = 0 then .ok ([], .indexedOption [] idx pr.2)
          else .ok pr
    | .byteMasked _ m vw child =>
        if axis = depth then .error (.invalidArgument "axis=0 not allowed for flatten")
        else do
          let pr ← offsetsAndFlattened fuel child axis depth
          if pr.1.length = 0 then .ok ([], .byteMasked [] m vw pr.2)
          else .ok pr
    | .bitMasked _ m vw lsb n child =>
        if axis = depth then .error (.invalidArgument "axis=0 not allowed for flatten")
        else do
          let pr ← offsetsAndFlattened fuel child axis depth
          if pr.1.length = 0 then .ok ([], .bitMasked [] m vw lsb n pr.2)
          else .ok pr
    | .numpy _ _ _ =>
        if axis = depth then .error (.invalidArgument "axis=0 not allowed for flatten")
        else .error (.invalidArgument "axis exceeds the depth of this array")
    | .empty ps =>
        if axis = depth then .error (.invalidArgument "axis=0 not allowed for flatten")
        else .ok ([], .empty ps)
  termination_by fuel _ _ _ => (fuel, 0)

/-- The per-field loop of `RecordArray::offsets_and_flattened`
(RecordArray.cpp lines 611-622): each field is trimmed with
`getitem_range(0, length)`, flattened at the same depth, and must come
back with empty offsets. -/
def recordFlattenFields (fuel : Nat) (len : Nat) (axis depth : Nat) :
    List Content → Except Err (List Content)
  | [] => .ok []
  | f :: rest => do
      let trimmed ← f.getitemRange 0 (len : Int)
      let pr ← offsetsAndFlattened fuel trimmed axis depth
      if pr.1.length ≠ 0 then
        .error (.runtimeError
          "RecordArray content with axis > depth + 1 returned a non-empty offsets from offsets_and_flattened")
      else do
        let rest2 ← recordFlattenFields fuel len axis depth rest
        .ok (pr.2 :: rest2)
  termination_by l => (fuel, l.length + 1)

end

/-- The child kinds collapsed by `UnmaskedArray::simplify_optiontype`
(the eight dynamic casts of UnmaskedArray.cpp lines 61-68, with the
index widths collapsed). -/
def isOptionOrIndexedKind : Content → Bool
  | .indexed _ _ _ | .indexedOption _ _ _ | .byteMasked _ _ _ _
  | .bitMasked _ _ _ _ _ _ | .unmasked _ _ => true
  | _ => false

/-- The accumulator step of `minlength` (RecordArray.cpp lines 44-50). -/
def minlengthStep (out : Option Nat) (x : Content) : Option Nat :=
  match out with
  | none => some x.length
  | some o => if o > x.length then some x.length else some o

/-- Running minimum over field lengths. -/
def minAux (cs : List Content) (a : Nat) : Nat :=
  cs.foldl (fun a c => min a c.length) a

/-- The structural validity used by the amended merge-length claim: every
record node's stored length is at most each of its fields' lengths (§3.3
length sanity) and its lookup, when present, has exactly one key per
field (the `RecordArray` constructor check, RecordArray.cpp lines
32-36), recursively. -/
def lenOk : Content → Bool
  | .empty _ => true
  | .numpy _ _ _ => true
  | .listOffset _ _ c => lenOk c
  | .indexed _ _ c => lenOk c
  | .indexedOption _ _ c => lenOk c
  | .byteMasked _ m _ c => decide (m.length ≤ c.length) && lenOk c
  | .bitMasked _ _ _ _ n c => decide (n ≤ c.length) && lenOk c
  | .unmasked _ c => lenOk c
  | .record _ cs lk n =>
      (cs.attach.all (fun x => decide (n ≤ x.1.length) && lenOk x.1)) &&
      (match lk with
       | some l => l.length == cs.length
       | none => true)
  | .union _ _ _ cs => cs.attach.all (fun x => lenOk x.1)
  termination_by c => sizeOf c
  decreasing_by
    all_goals simp_wf
    all_goals
      (obtain ⟨c, hmem⟩ := x
       have := List.sizeOf_lt_of_mem hmem
       simp only []
       omega)

/-- The variants whose `merge` performs the parameters check directly:
everything except `Empty` (which returns `other` unconditionally) and
the masked options (`Unmasked`, `ByteMasked`, `BitMasked`, which first
convert themselves to their `IndexedOption64` view). -/
def directMergeVariant : Content → Bool
  | .union _ _ _ _ | .record _ _ _ _ | .numpy _ _ _ | .indexed _ _ _
  | .indexedOption _ _ _ | .listOffset _ _ _ => true
  | _ => false

set_option maxRecDepth 10000 in
/-- 128 leaf arms with pairwise different parameters (no two mergeable). -/
def c9aArms : List Content :=
  (List.range 128).map (fun i => Content.numpy [(Nat.repr i, "")] false [])

/-- The loop step of the project kernel (`projectCarryKernel`). -/
def projStep (tags index : List Int) (which : Nat) (acc : List Int) (m : Nat) : List Int :=
  if tags.getD m 0 = (which : Int) then acc ++ [index.getD m 0] else acc

theorem minlength_foldl_eq (cs : List Content) :
    cs.foldl
      (fun out x =>
        match out with
        | none => some x.length
        | some o => if o > x.length then some x.length else some o)
      = cs.foldl minlengthStep := by
  rfl

theorem minlengthStep_some (a : Nat) (c : Content) :
    minlengthStep (some a) c = some (min a c.length) := by
  simp only [minlengthStep]
  rcases Nat.lt_or_ge c.length a with h | h
  · simp [Nat.min_def, h, Nat.not_le.mpr h, Nat.le_of_lt h]
  · have : ¬ a > c.length := Nat.not_lt.mpr h
    simp [this, Nat.min_def, h]

theorem foldl_minlengthStep_some (cs : List Content) (a : Nat) :
    cs.foldl minlengthStep (some a) = some (minAux cs a) := by
  induction cs generalizing a with
  | nil => simp [minAux]
  | cons c rest ih =>
      simp only [List.foldl_cons, minlengthStep_some, minAux]
      exact ih (min a c.length)

theorem minAux_cons (c : Content) (rest : List Content) (a : Nat) :
    minAux (c :: rest) a = minAux rest (min a c.length) := rfl

theorem minlength_cons (c : Content) (rest : List Content) :
    minlength (c :: rest) = minAux rest c.length := by
  have h : minlength (c :: rest) = (rest.foldl minlengthStep (some c.length)).getD 0 := rfl
  rw [h, foldl_minlengthStep_some]
  rfl

theorem minAux_le_init (cs : List Content) (a : Nat) : minAux cs a ≤ a := by
  induction cs generalizing a with
  | nil => simp [minAux]
  | cons c rest ih =>
      simp only [minAux, List.foldl_cons]
      exact Nat.le_trans (ih (min a c.length)) (Nat.min_le_left _ _)

theorem minAux_le_mem (cs : List Content) : ∀ (a : Nat) (c : Content), c ∈ cs →
    minAux cs a ≤ c.length := by
  induction cs with
  | nil => intro a c h; cases h
  | cons d rest ih =>
      intro a c h
      rcases List.mem_cons.mp h with h1 | h1
      · subst h1
        rw [minAux_cons]
        exact Nat.le_trans (minAux_le_init rest _) (Nat.min_le_right _ _)
      · rw [minAux_cons]
        exact ih _ _ h1

theorem minAux_attained (cs : List Content) : ∀ a : Nat,
    minAux cs a = a ∨ ∃ c ∈ cs, minAux cs a = c.length := by
  induction cs with
  | nil => intro a; exact Or.inl rfl
  | cons c rest ih =>
      intro a
      rw [minAux_cons]
      rcases ih (min a c.length) with h | ⟨d, hd, he⟩
      · rcases Nat.le_total a c.length with hle | hle
        · left
          rw [h, Nat.min_eq_left hle]
        · right
          exact ⟨c, List.mem_cons_self _ _, by rw [h, Nat.min_eq_right hle]⟩
      · exact Or.inr ⟨d, List.mem_cons_of_mem _ hd, he⟩

/-- **C10.** A `RecordArray` built by the four-argument factory (`mkRecord`,
i.e. the constructor without an explicit length, used by `merge`,
`getitem_fields`, `setitem_field`) has `length() = minlength(contents)`:
0 when there are no fields, otherwise the minimum of the field lengths
(it is a lower bound and is attained by some field); a record with no
fields keeps an arbitrary length only through the explicit-length
constructor. -/
theorem c10_record_default_length (ps : Params) (cs : List Content)
    (lk : Option (List String)) (n : Nat) :
    (mkRecord ps cs lk).length = minlength cs
    ∧ (cs = [] → (mkRecord ps cs lk).length = 0)
    ∧ (∀ c ∈ cs, minlength cs ≤ c.length)
    ∧ (cs ≠ [] → ∃ c ∈ cs, c.length = minlength cs)
    ∧ Content.length (.record ps [] lk n) = n := by
  refine ⟨rfl, ?_, ?_, ?_, rfl⟩
  · intro h
    subst h
    rfl
  · intro c hc
    match cs, hc with
    | d :: rest, hc =>
        rw [minlength_cons]
        rcases List.mem_cons.mp hc with h1 | h1
        · subst h1
          exact minAux_le_init _ _
        · exact minAux_le_mem _ _ _ h1
  · intro hne
    match cs, hne with
    | d :: rest, _ =>
        rw [minlength_cons]
        rcases minAux_attained rest d.length with h | ⟨c, hc, he⟩
        · exact ⟨d, List.mem_cons_self _ _, h.symm⟩
        · exact ⟨c, List.mem_cons_of_mem _ hc, he.symm⟩

/-- **C10 witness.** The characterization evaluated at a two-field record
and at the explicit-length empty record. -/
theorem c10_record_default_length_witness :
    (mkRecord [] [Content.numpy [] false [1, 2], Content.numpy [] false [3]] none).length
      = minlength [Content.numpy [] false [1, 2], Content.numpy [] false [3]]
    ∧ minlength [Content.numpy [] false [1, 2], Content.numpy [] false [3]]
        ≤ (Content.numpy [] false [1, 2]).length
    ∧ (∃ c ∈ [Content.numpy [] false [1, 2], Content.numpy [] false [3]],
        c.length = minlength [Content.numpy [] false [1, 2], Content.numpy [] false [3]])
    ∧ Content.length (.record [] [] none 5) = 5 := by
  have h := c10_record_default_length []
    [Content.numpy [] false [1, 2], Content.numpy [] false [3]] none 5
  exact ⟨h.1, h.2.2.1 _ (by simp), h.2.2.2.1 (by simp), h.2.2.2.2⟩

/-- **C6.** `UnmaskedArray::simplify_optiontype` returns the child
unchanged when the child is an `Indexed`, `IndexedOption`, `ByteMasked`,
`BitMasked` or `Unmasked` node, and otherwise returns the array itself
(`shallow_copy`). -/
theorem c6_unmasked_simplify_optiontype (ps : Params) (child : Content) :
    Content.simplifyOptiontype (.unmasked ps child)
      = if isOptionOrIndexedKind child = true then child else .unmasked ps child := by
  cases child <;> rfl

theorem arangeN_length (n : Nat) : (arangeN n).length = n := by
  simp [arangeN]

theorem arangeN_getD (n i : Nat) (d : Int) (h : i < n) : (arangeN n).getD i d = i := by
  simp [arangeN, List.getD_eq_getElem?_getD, List.getElem?_map, List.getElem?_range, h]

theorem getD_append_left {l l2 : List Int} {i : Nat} (h : i < l.length) (d : Int) :
    (l ++ l2).getD i d = l.getD i d := by
  simp [List.getD_eq_getElem?_getD, List.getElem?_append_left h]

theorem getD_append_right_off {l l2 : List Int} (j : Nat) (d : Int) :
    (l ++ l2).getD (l.length + j) d = l2.getD j d := by
  simp [List.getD_eq_getElem?_getD, List.getElem?_append_right (Nat.le_add_right l.length j)]

theorem getD_replicate_left (n : Nat) (a d : Int) (i : Nat) (h : i < n) :
    (List.replicate n a).getD i d = a := by
  simp [List.getD_eq_getElem?_getD, List.getElem?_replicate, h]

theorem getD_map_succ (tags : List Int) (j : Nat) (h : j < tags.length) (d : Int) :
    (tags.map (fun t => t + 1)).getD j d = tags.getD j 0 + 1 := by
  simp [List.getD_eq_getElem?_getD, List.getElem?_map, List.getElem?_eq_getElem h]

theorem getD_take_lt (index : List Int) (n j : Nat) (h : j < n) (d : Int) :
    (index.take n).getD j d = index.getD j d := by
  simp [List.getD_eq_getElem?_getD, List.getElem?_take, h]

theorem getD_default_irrel (l : List Int) (j : Nat) (h : j < l.length) (d1 d2 : Int) :
    l.getD j d1 = l.getD j d2 := by
  simp [List.getD_eq_getElem?_getD, List.getElem?_eq_getElem h]

/-- **C5.** `UnionArrayOf::reverse_merge(other)` returns a `Union<i8,i64>`
representing `other` then the union: arm 0 is `other`, arms 1..N are the
union's arms; for `i < len(other)` the row carries tag 0 and index `i`,
and row `len(other)+j` carries tag `tags[j]+1` and index `index[j]`. -/
theorem c5_union_reverse_merge (fuel : Nat) (ps : Params) (tags index : List Int)
    (cs : List Content) (other : Content)
    (hidx : tags.length ≤ index.length) (hcap : cs.length + 1 ≤ 127) :
    reverseMergeF (fuel + 1) (.union ps tags index cs) other
      = .ok (.union []
          (List.replicate other.length (0 : Int) ++ tags.map (fun t => t + 1))
          (arangeN other.length ++ index.take tags.length)
          (other :: cs))
    ∧ (∀ i, i < other.length →
        (List.replicate other.length (0 : Int) ++ tags.map (fun t => t + 1)).getD i 9 = 0
        ∧ (arangeN other.length ++ index.take tags.length).getD i 9 = i)
    ∧ (∀ j, j < tags.length →
        (List.replicate other.length (0 : Int)
          ++ tags.map (fun t => t + 1)).getD (other.length + j) 9
          = tags.getD j 0 + 1
        ∧ (arangeN other.length ++ index.take tags.length).getD (other.length + j) 9
          = index.getD j 0) := by
  refine ⟨?_, ?_, ?_⟩
  · show (if (other :: cs).length > 127 then _ else _) = _
    rw [if_neg (by simp; omega)]
    show mkUnion _ _ _ _ = _
    rw [mkUnion, if_neg (by simp), if_neg ?_]
    have h1 : (List.replicate other.length (0 : Int) ++ tags.map (fun t => t + 1)).length
        = other.length + tags.length := by simp
    have h2 : (arangeN other.length ++ index.take tags.length).length
        = other.length + tags.length := by
      simp [arangeN_length]
      omega
    omega
  · intro i hi
    constructor
    · rw [getD_append_left (by simp [hi]) 9, getD_replicate_left _ _ _ _ hi]
    · rw [getD_append_left (by simp [arangeN_length, hi]) 9, arangeN_getD _ _ _ hi]
  · intro j hj
    constructor
    · have h := @getD_append_right_off (List.replicate other.length (0 : Int))
        (tags.map (fun t => t + 1)) j 9
      simp only [List.length_replicate] at h
      rw [h, getD_map_succ _ _ hj]
    · have h := @getD_append_right_off (arangeN other.length)
        (index.take tags.length) j 9
      rw [arangeN_length] at h
      rw [h, getD_take_lt _ _ _ hj]
      exact getD_default_irrel _ _ (Nat.lt_of_lt_of_le hj hidx) _ _

theorem exbind_ok {α β : Type} (a : α) (f : α → Except Err β) :
    (Except.ok a >>= f : Except Err β) = f a := rfl

theorem exbind_err {α β : Type} (e : Err) (f : α → Except Err β) :
    ((Except.error e : Except Err α) >>= f : Except Err β) = .error e := rfl

/-- **C5 witness.** The reverse-merge characterization at a two-arm union
and a dense leaf. -/
theorem c5_union_reverse_merge_witness :
    reverseMergeF 2
        (.union [] [0, 1] [0, 0]
          [Content.numpy [] false [1], Content.numpy [] false [2]])
        (.numpy [] false [9])
      = .ok (.union []
          (List.replicate 1 (0 : Int) ++ [(0 : Int), 1].map (fun t => t + 1))
          (arangeN 1 ++ [(0 : Int), 0].take 2)
          [Content.numpy [] false [9], Content.numpy [] false [1],
            Content.numpy [] false [2]]) := by
  exact (c5_union_reverse_merge 1 [] [0, 1] [0, 0]
    [Content.numpy [] false [1], Content.numpy [] false [2]]
    (.numpy [] false [9]) (by decide) (by decide)).1

/-- **C9.** Every operation that can grow a union's arm list fails with
the capacity error rather than returning a union with more than 127
arms: `simplify_uniontype` when the canonical arm count exceeds 127,
`merge` when the combined arm count exceeds 127, and `reverse_merge`
when prepending the new arm 0 pushes the count past 127. -/
theorem c9_union_capacity (fuel : Nat) (ps : Params) (tags index : List Int)
    (cs : List Content) (other : Content) (mb : Bool)
    (st : List Int × List Int × List Content) :
    (¬ index.length < tags.length →
      simplifyLoop fuel mb tags index 0 cs
          (List.replicate tags.length 0, List.replicate tags.length 0, []) = .ok st →
      st.2.2.length > 127 →
      Content.simplifyUniontype fuel (.union ps tags index cs) mb
        = .error (.runtimeError "FIXME: handle UnionArray with more than 127 contents"))
    ∧ (paramsEqual ps other.paramsOf = true →
      (∀ q : Params, other ≠ .empty q) →
      (unionMergeParts tags index cs other).2.2.length > 127 →
      mergeF (fuel + 1) (.union ps tags index cs) other
        = .error (.runtimeError "FIXME: handle UnionArray with more than 127 contents"))
    ∧ (cs.length + 1 > 127 →
      reverseMergeF (fuel + 1) (.union ps tags index cs) other
        = .error (.runtimeError "FIXME: handle UnionArray with more than 127 contents")) := by
  refine ⟨?_, ?_, ?_⟩
  · intro hlen hloop hbig
    simp only [Content.simplifyUniontype]
    rw [if_neg hlen, hloop, exbind_ok, if_pos hbig]
  · intro hp hne hbig
    have hcond : ¬ ¬ (paramsEqual ps other.paramsOf = true) := by simp [hp]
    cases other with
    | empty q => exact absurd rfl (hne q)
    | numpy ps2 b2 d2 =>
        simp only [mergeF]
        rw [if_neg hcond, if_pos hbig]
    | listOffset ps2 o2 c2 =>
        simp only [mergeF]
        rw [if_neg hcond, if_pos hbig]
    | indexed ps2 i2 c2 =>
        simp only [mergeF]
        rw [if_neg hcond, if_pos hbig]
    | indexedOption ps2 i2 c2 =>
        simp only [mergeF]
        rw [if_neg hcond, if_pos hbig]
    | byteMasked ps2 m2 v2 c2 =>
        simp only [mergeF]
        rw [if_neg hcond, if_pos hbig]
    | bitMasked ps2 m2 v2 l2 n2 c2 =>
        simp only [mergeF]
        rw [if_neg hcond, if_pos hbig]
    | unmasked ps2 c2 =>
        simp only [mergeF]
        rw [if_neg hcond, if_pos hbig]
    | record ps2 cs2 lk2 n2 =>
        simp only [mergeF]
        rw [if_neg hcond, if_pos hbig]
    | union ps2 t2 x2 cs2 =>
        simp only [mergeF]
        rw [if_neg hcond, if_pos hbig]
  · intro hbig
    simp only [reverseMergeF, unionReverseMerge]
    rw [if_pos (by simp; omega)]

set_option maxRecDepth 100000 in
/-- **C9 witness.** The three capacity failures at concrete unions: a
union of 128 pairwise-unmergeable arms being simplified, and a 127-arm
union merged / reverse-merged with one more array. -/
theorem c9_union_capacity_witness :
    Content.simplifyUniontype 1 (.union [] [] [] c9aArms) false
      = .error (.runtimeError "FIXME: handle UnionArray with more than 127 contents")
    ∧ mergeF 2 (.union [] [] [] (List.replicate 127 (Content.numpy [] false [])))
        (.numpy [] false [])
      = .error (.runtimeError "FIXME: handle UnionArray with more than 127 contents")
    ∧ reverseMergeF 2 (.union [] [] [] (List.replicate 127 (Content.numpy [] false [])))
        (.numpy [] false [])
      = .error (.runtimeError "FIXME: handle UnionArray with more than 127 contents") := by
  refine ⟨?_, ?_, ?_⟩
  · exact (c9_union_capacity 1 [] [] [] c9aArms (.numpy [] false []) false
      ([], [], c9aArms)).1 (by decide) (by rfl) (by decide)
  · exact (c9_union_capacity 1 [] [] []
      (List.replicate 127 (Content.numpy [] false [])) (.numpy [] false []) false
      ([], [], [])).2.1 (by decide) (fun q h => Content.noConfusion h) (by decide)
  · exact (c9_union_capacity 1 [] [] []
      (List.replicate 127 (Content.numpy [] false [])) (.numpy [] false []) false
      ([], [], [])).2.2 (by decide)

theorem exbind_eq_ok {α β : Type} {m : Except Err α} {f : α → Except Err β} {b : β}
    (h : (m >>= f) = .ok b) : ∃ a, m = .ok a ∧ f a = .ok b := by
  cases m with
  | ok a => exact ⟨a, rfl, h⟩
  | error e => cases h

theorem simplifyOneKernel_lengths (t x ft fx : List Int) (tw fw b : Nat) :
    (simplifyOneKernel t x ft fx tw fw b).1.length = t.length ∧
    (simplifyOneKernel t x ft fx tw fw b).2.length = x.length := by
  simp [simplifyOneKernel]

theorem simplifyNestedKernel_lengths (t x ot oi it ii : List Int) (tw iw ow b : Nat) :
    (simplifyNestedKernel t x ot oi it ii tw iw ow b).1.length = t.length ∧
    (simplifyNestedKernel t x ot oi it ii tw iw ow b).2.length = x.length := by
  simp [simplifyNestedKernel]

theorem simplifyStepOne_lengths {fuel : Nat} {mb : Bool} {sT sI : List Int} {i : Nat}
    {arm : Content} {st st2 : List Int × List Int × List Content}
    (h : simplifyStepOne fuel mb sT sI i arm st = .ok st2) :
    st2.1.length = st.1.length ∧ st2.2.1.length = st.2.1.length := by
  unfold simplifyStepOne at h
  obtain ⟨r, hr, h2⟩ := exbind_eq_ok h
  cases r with
  | none =>
      simp only [] at h2
      injection h2 with h3
      rw [← h3]
      refine ⟨?_, ?_⟩ <;> simp [simplifyOneKernel]
  | some kbl =>
      simp only [] at h2
      injection h2 with h3
      rw [← h3]
      refine ⟨?_, ?_⟩ <;> simp [simplifyOneKernel]

theorem simplifyStepInner_lengths {fuel : Nat} {mb : Bool} {sT sI it ii : List Int}
    {i : Nat} : ∀ (inner : List Content) (j : Nat)
    (st st2 : List Int × List Int × List Content),
    simplifyStepInner fuel mb sT sI it ii i j inner st = .ok st2 →
    st2.1.length = st.1.length ∧ st2.2.1.length = st.2.1.length := by
  intro inner
  induction inner with
  | nil =>
      intro j st st2 h
      unfold simplifyStepInner at h
      injection h with h2
      rw [← h2]
      exact ⟨rfl, rfl⟩
  | cons c rest ih =>
      intro j st st2 h
      unfold simplifyStepInner at h
      obtain ⟨mid, hmid, h2⟩ := exbind_eq_ok h
      obtain ⟨r, hr, h3⟩ := exbind_eq_ok hmid
      have hmidlen : mid.1.length = st.1.length ∧ mid.2.1.length = st.2.1.length := by
        cases r with
        | none =>
            simp only [] at h3
            injection h3 with h4
            rw [← h4]
            refine ⟨?_, ?_⟩ <;> simp [simplifyNestedKernel]
        | some kbl =>
            simp only [] at h3
            injection h3 with h4
            rw [← h4]
            refine ⟨?_, ?_⟩ <;> simp [simplifyNestedKernel]
      have hrec := ih (j + 1) mid st2 h2
      exact ⟨hrec.1.trans hmidlen.1, hrec.2.trans hmidlen.2⟩

theorem simplifyLoop_lengths {fuel : Nat} {mb : Bool} {sT sI : List Int} :
    ∀ (arms : List Content) (i : Nat) (st st2 : List Int × List Int × List Content),
    simplifyLoop fuel mb sT sI i arms st = .ok st2 →
    st2.1.length = st.1.length ∧ st2.2.1.length = st.2.1.length := by
  intro arms
  induction arms with
  | nil =>
      intro i st st2 h
      unfold simplifyLoop at h
      injection h with h2
      rw [← h2]
      exact ⟨rfl, rfl⟩
  | cons arm rest ih =>
      intro i st st2 h
      unfold simplifyLoop at h
      cases arm with
      | union ps2 it2 ii2 ics =>
          obtain ⟨mid, hmid, h2⟩ := exbind_eq_ok h
          have hmidlen := simplifyStepInner_lengths _ _ _ _ hmid
          have hrec := ih (i + 1) mid st2 h2
          exact ⟨hrec.1.trans hmidlen.1, hrec.2.trans hmidlen.2⟩
      | empty ps2 =>
          obtain ⟨mid, hmid, h2⟩ := exbind_eq_ok h
          have hmidlen := simplifyStepOne_lengths hmid
          have hrec := ih (i + 1) mid st2 h2
          exact ⟨hrec.1.trans hmidlen.1, hrec.2.trans hmidlen.2⟩
      | numpy ps2 b2 d2 =>
          obtain ⟨mid, hmid, h2⟩ := exbind_eq_ok h
          have hmidlen := simplifyStepOne_lengths hmid
          have hrec := ih (i + 1) mid st2 h2
          exact ⟨hrec.1.trans hmidlen.1, hrec.2.trans hmidlen.2⟩
      | listOffset ps2 o2 c2 =>
          obtain ⟨mid, hmid, h2⟩ := exbind_eq_ok h
          have hmidlen := simplifyStepOne_lengths hmid
          have hrec := ih (i + 1) mid st2 h2
          exact ⟨hrec.1.trans hmidlen.1, hrec.2.trans hmidlen.2⟩
      | indexed ps2 i2 c2 =>
          obtain ⟨mid, hmid, h2⟩ := exbind_eq_ok h
          have hmidlen := simplifyStepOne_lengths hmid
          have hrec := ih (i + 1) mid st2 h2
          exact ⟨hrec.1.trans hmidlen.1, hrec.2.trans hmidlen.2⟩
      | indexedOption ps2 i2 c2 =>
          obtain ⟨mid, hmid, h2⟩ := exbind_eq_ok h
          have hmidlen := simplifyStepOne_lengths hmid
          have hrec := ih (i + 1) mid st2 h2
          exact ⟨hrec.1.trans hmidlen.1, hrec.2.trans hmidlen.2⟩
      | byteMasked ps2 m2 v2 c2 =>
          obtain ⟨mid, hmid, h2⟩ := exbind_eq_ok h
          have hmidlen := simplifyStepOne_lengths hmid
          have hrec := ih (i + 1) mid st2 h2
          exact ⟨hrec.1.trans hmidlen.1, hrec.2.trans hmidlen.2⟩
      | bitMasked ps2 m2 v2 l2 n2 c2 =>
          obtain ⟨mid, hmid, h2⟩ := exbind_eq_ok h
          have hmidlen := simplifyStepOne_lengths hmid
          have hrec := ih (i + 1) mid st2 h2
          exact ⟨hrec.1.trans hmidlen.1, hrec.2.trans hmidlen.2⟩
      | unmasked ps2 c2 =>
          obtain ⟨mid, hmid, h2⟩ := exbind_eq_ok h
          have hmidlen := simplifyStepOne_lengths hmid
          have hrec := ih (i + 1) mid st2 h2
          exact ⟨hrec.1.trans hmidlen.1, hrec.2.trans hmidlen.2⟩
      | record ps2 cs2 lk2 n2 =>
          obtain ⟨mid, hmid, h2⟩ := exbind_eq_ok h
          have hmidlen := simplifyStepOne_lengths hmid
          have hrec := ih (i + 1) mid st2 h2
          exact ⟨hrec.1.trans hmidlen.1, hrec.2.trans hmidlen.2⟩


/-- **C1.** `simplify_uniontype(mergebool)` on a union returns, once the
canonical-arm loop has finished (and within the 127-arm cap): when
exactly one canonical arm remains, `canonical[0].carry(index)` with the
composed per-row index built during simplification (a non-union node);
otherwise a `Union<i8,i64>` over the canonical tags, index and
contents. -/
theorem c1_simplify_uniontype_shape (fuel : Nat) (ps : Params) (tags index : List Int)
    (cs : List Content) (mb : Bool) (st : List Int × List Int × List Content)
    (hlen : ¬ index.length < tags.length)
    (hloop : simplifyLoop fuel mb tags index 0 cs
        (List.replicate tags.length 0, List.replicate tags.length 0, []) = .ok st)
    (hcap : ¬ st.2.2.length > 127) :
    (st.2.2.length = 1 →
      Content.simplifyUniontype fuel (.union ps tags index cs) mb
        = (st.2.2.headD (.empty [])).carry st.2.1)
    ∧ (2 ≤ st.2.2.length →
      Content.simplifyUniontype fuel (.union ps tags index cs) mb
        = .ok (.union ps st.1 st.2.1 st.2.2)) := by
  have hL := simplifyLoop_lengths _ _ _ _ hloop
  simp only [List.length_replicate] at hL
  constructor
  · intro h1
    simp only [Content.simplifyUniontype]
    rw [if_neg hlen, hloop, exbind_ok, if_neg hcap, if_pos h1]
  · intro h2
    simp only [Content.simplifyUniontype]
    rw [if_neg hlen, hloop, exbind_ok, if_neg hcap, if_neg (by omega)]
    unfold mkUnion
    rw [if_neg ?_, if_neg ?_]
    · omega
    · rw [List.isEmpty_eq_true]
      intro hnil
      rw [hnil] at h2
      simp at h2

/-- **C1 witness.** Both shapes at concrete unions: a one-arm union
collapses to `carry`, a two-arm union with unmergeable arms stays a
union. -/
theorem c1_simplify_uniontype_shape_witness :
    Content.simplifyUniontype 1 (.union [] [0] [0] [Content.numpy [] false [5]]) false
      = (Content.numpy [] false [5]).carry [0]
    ∧ Content.simplifyUniontype 1
        (.union [] [0, 1] [0, 0]
          [Content.numpy [] false [1], Content.numpy [("x", "y")] false [2]]) false
      = .ok (.union [] [0, 1] [0, 0]
          [Content.numpy [] false [1], Content.numpy [("x", "y")] false [2]]) := by
  constructor
  · exact (c1_simplify_uniontype_shape 1 [] [0] [0] [Content.numpy [] false [5]] false
      ([0], [0], [Content.numpy [] false [5]]) (by decide) (by rfl) (by decide)).1 rfl
  · exact (c1_simplify_uniontype_shape 1 [] [0, 1] [0, 0]
      [Content.numpy [] false [1], Content.numpy [("x", "y")] false [2]] false
      ([0, 1], [0, 0], [Content.numpy [] false [1], Content.numpy [("x", "y")] false [2]])
      (by decide) (by rfl) (by decide)).2 (by decide)

/-- **C4 counterexample.** The claim quantifies over every `Content`
`self`, but when `self` is an `UnmaskedArray`, `merge` first converts it
to its `IndexedOption64` view (UnmaskedArray.cpp lines 539-542), so the
fallback union's arm 0 is the converted node, not `self` itself. -/
theorem c4_params_differ_counterexample :
    mergeF 3 (.unmasked [("a", "1")] (.numpy [("a", "1")] false [7]))
        (.numpy [] false [1])
      = .ok (.union [] [0, 1] [0, 0]
          [.indexedOption [("a", "1")] [0] (.numpy [("a", "1")] false [7]),
           .numpy [] false [1]])
    ∧ (Content.indexedOption [("a", "1")] [0] (.numpy [("a", "1")] false [7])
        ≠ .unmasked [("a", "1")] (.numpy [("a", "1")] false [7])) := by
  refine ⟨by rfl, ?_⟩
  intro h
  exact Content.noConfusion h

/-- **C4 (amended).** For every `self` whose `merge` performs the
parameter check directly (`Union`, `Record`, and the modelled `Numpy`,
`Indexed`, `IndexedOption`, `ListOffset`), if the parameter maps are not
equal then `merge` falls back to `merge_as_union(other)`: a two-arm
`Union<i8,i64>` whose arm 0 is `self` and arm 1 is `other`, with
identity index, rather than merging the payloads.  (An `Unmasked`,
`ByteMasked` or `BitMasked` `self` reaches the same fallback only after
converting itself to `IndexedOption64`, and `Empty` returns `other`
unconditionally.) -/
theorem c4_params_differ_merge_as_union (fuel : Nat) (self other : Content)
    (hd : directMergeVariant self = true)
    (hp : paramsEqual self.paramsOf other.paramsOf = false) :
    mergeF (fuel + 1) self other = .ok (mergeAsUnion self other)
    ∧ mergeAsUnion self other
      = .union []
          (List.replicate self.length (0 : Int) ++ List.replicate other.length (1 : Int))
          (arangeN self.length ++ arangeN other.length)
          [self, other] := by
  refine ⟨?_, rfl⟩
  have hcond : ¬ (paramsEqual self.paramsOf other.paramsOf = true) := by simp [hp]
  cases self with
  | empty ps => simp [directMergeVariant] at hd
  | unmasked ps c => simp [directMergeVariant] at hd
  | byteMasked ps m vw c => simp [directMergeVariant] at hd
  | bitMasked ps m vw lsb n c => simp [directMergeVariant] at hd
  | union ps t x cs =>
      have hcond2 : ¬ (paramsEqual ps other.paramsOf = true) := hcond
      simp only [mergeF]
      rw [if_pos hcond2]
  | record ps cs lk len =>
      have hcond2 : ¬ (paramsEqual ps other.paramsOf = true) := hcond
      simp only [mergeF]
      rw [if_pos hcond2]
  | numpy ps b d =>
      have hcond2 : ¬ (paramsEqual ps other.paramsOf = true) := hcond
      simp only [mergeF]
      rw [if_pos hcond2]
  | indexed ps idx c =>
      have hcond2 : ¬ (paramsEqual ps other.paramsOf = true) := hcond
      simp only [mergeF]
      rw [if_pos hcond2]
  | indexedOption ps idx c =>
      have hcond2 : ¬ (paramsEqual ps other.paramsOf = true) := hcond
      simp only [mergeF]
      rw [if_pos hcond2]
  | listOffset ps offs c =>
      have hcond2 : ¬ (paramsEqual ps other.paramsOf = true) := hcond
      simp only [mergeF]
      rw [if_pos hcond2]

/-- **C4 witness.** The amended fallback at a named record and a dense
leaf with different parameters. -/
theorem c4_params_differ_merge_as_union_witness :
    mergeF 2 (.record [("k", "v")] [] none 0) (.numpy [] false [1])
      = .ok (mergeAsUnion (.record [("k", "v")] [] none 0) (.numpy [] false [1])) := by
  exact (c4_params_differ_merge_as_union 1 _ _ (by decide) (by decide)).1

theorem recordFlattenFields_error {fuel len axis depth : Nat} :
    ∀ (pre : List Content) (f : Content) (post : List Content),
    (∀ g ∈ pre, ∃ tg pg, g.getitemRange 0 (len : Int) = .ok tg ∧
        offsetsAndFlattened fuel tg axis depth = .ok (([] : List Int), pg)) →
    (∃ tf off pf, f.getitemRange 0 (len : Int) = .ok tf ∧
        offsetsAndFlattened fuel tf axis depth = .ok (off, pf) ∧ off ≠ []) →
    recordFlattenFields fuel len axis depth (pre ++ f :: post)
      = .error (.runtimeError
          "RecordArray content with axis > depth + 1 returned a non-empty offsets from offsets_and_flattened") := by
  intro pre
  induction pre with
  | nil =>
      intro f post _ hf
      obtain ⟨tf, off, pf, h1, h2, h3⟩ := hf
      show recordFlattenFields fuel len axis depth (f :: post) = _
      unfold recordFlattenFields
      rw [h1, exbind_ok, h2, exbind_ok,
        if_pos (fun hc => h3 (List.length_eq_zero.mp hc))]
  | cons g pre ih =>
      intro f post hpre hf
      obtain ⟨tg, pg, hg1, hg2⟩ := hpre g (List.mem_cons_self _ _)
      show recordFlattenFields fuel len axis depth (g :: (pre ++ f :: post)) = _
      unfold recordFlattenFields
      rw [hg1, exbind_ok, hg2, exbind_ok, if_neg (by simp),
        ih f post (fun x hx => hpre x (List.mem_cons_of_mem _ hx)) hf, exbind_err]

/-- **C8.** Flatten legality: (1) `offsets_and_flattened` raises
InvalidArgument on every variant when the requested axis equals the
current depth; (2) a `RecordArray` additionally raises InvalidArgument at
`axis = depth + 1` (the record's own axis); (3) at any deeper axis, a
`RecordArray` raises a runtime (Internal) error as soon as a field's
recursive call returns a non-empty offsets buffer. -/
theorem c8_flatten_errors :
    (∀ (fuel : Nat) (c : Content) (axis depth : Nat), axis = depth →
      offsetsAndFlattened (fuel + 1) c axis depth
        = .error (.invalidArgument "axis=0 not allowed for flatten"))
    ∧ (∀ (fuel : Nat) (ps : Params) (cs : List Content) (lk : Option (List String))
        (len axis depth : Nat), axis = depth + 1 →
      offsetsAndFlattened (fuel + 1) (.record ps cs lk len) axis depth
        = .error (.invalidArgument
            "arrays of records cannot be flattened (but their contents can be; try a different axis)"))
    ∧ (∀ (fuel : Nat) (ps : Params) (lk : Option (List String)) (len axis depth : Nat)
        (pre : List Content) (f : Content) (post : List Content),
      axis ≠ depth → axis ≠ depth + 1 →
      (∀ g ∈ pre, ∃ tg pg, g.getitemRange 0 (len : Int) = .ok tg ∧
          offsetsAndFlattened fuel tg axis depth = .ok (([] : List Int), pg)) →
      (∃ tf off pf, f.getitemRange 0 (len : Int) = .ok tf ∧
          offsetsAndFlattened fuel tf axis depth = .ok (off, pf) ∧ off ≠ []) →
      offsetsAndFlattened (fuel + 1) (.record ps (pre ++ f :: post) lk len) axis depth
        = .error (.runtimeError
            "RecordArray content with axis > depth + 1 returned a non-empty offsets from offsets_and_flattened")) := by
  refine ⟨?_, ?_, ?_⟩
  · intro fuel c axis depth h
    subst h
    cases c <;> simp [offsetsAndFlattened]
  · intro fuel ps cs lk len axis depth h
    subst h
    simp [offsetsAndFlattened]
  · intro fuel ps lk len axis depth pre f post h1 h2 hpre hf
    simp only [offsetsAndFlattened]
    rw [if_neg h1, if_neg h2, recordFlattenFields_error pre f post hpre hf, exbind_err]

/-- **C8 witness.** The three errors at concrete inputs: a leaf at
`axis = depth`, a record at its own axis, and a record whose single
list-layer field reports non-empty offsets at a deeper axis. -/
theorem c8_flatten_errors_witness :
    offsetsAndFlattened 2 (.numpy [] false [1]) 0 0
      = .error (.invalidArgument "axis=0 not allowed for flatten")
    ∧ offsetsAndFlattened 2 (.record [] [] none 0) 1 0
      = .error (.invalidArgument
          "arrays of records cannot be flattened (but their contents can be; try a different axis)")
    ∧ offsetsAndFlattened 2
        (.record [] [.listOffset [] [0, 2, 3] (.numpy [] false [1, 2, 3])] none 2) 2 0
      = .error (.runtimeError
          "RecordArray content with axis > depth + 1 returned a non-empty offsets from offsets_and_flattened") := by
  refine ⟨?_, ?_, ?_⟩
  · exact c8_flatten_errors.1 1 (.numpy [] false [1]) 0 0 rfl
  · exact c8_flatten_errors.2.1 1 [] [] none 0 1 0 rfl
  · exact c8_flatten_errors.2.2 1 [] none 2 2 0 []
      (.listOffset [] [0, 2, 3] (.numpy [] false [1, 2, 3])) []
      (by decide) (by decide)
      (fun g hg => absurd hg (List.not_mem_nil g))
      ⟨.listOffset [] [0, 2, 3] (.numpy [] false [1, 2, 3]), [0, 2, 3],
        .numpy [] false [1, 2, 3],
        by simp [Content.getitemRange, regularizeRangeslice, Content.getitemRangeNowrap,
          sliceList, Content.length, exbind_ok],
        by simp [offsetsAndFlattened], by decide⟩

theorem projectCarryKernel_as_foldl (tags index : List Int) (which : Nat) :
    projectCarryKernel tags index which
      = (List.range tags.length).foldl (projStep tags index which) [] := rfl

theorem projStep_shift (t x : Int) (ts xs : List Int) (w : Nat) (acc : List Int) (m : Nat) :
    projStep (t :: ts) (x :: xs) w acc (m + 1) = projStep ts xs w acc m := by
  simp [projStep, List.getD_cons_succ]

theorem foldl_projStep_acc (ts xs : List Int) (w : Nat) :
    ∀ (l : List Nat) (acc : List Int),
    l.foldl (projStep ts xs w) acc = acc ++ l.foldl (projStep ts xs w) [] := by
  intro l
  induction l with
  | nil => intro acc; simp
  | cons m rest ih =>
      intro acc
      simp only [List.foldl_cons]
      rw [ih (projStep ts xs w acc m), ih (projStep ts xs w [] m)]
      have hsplit : projStep ts xs w acc m = acc ++ projStep ts xs w [] m := by
        simp only [projStep]
        split <;> simp
      rw [hsplit, List.append_assoc]

theorem projectCarryKernel_eq (tags : List Int) : ∀ (index : List Int) (which : Nat),
    tags.length ≤ index.length →
    projectCarryKernel tags index which
      = (tags.zip index).filterMap
          (fun p => if p.1 = (which : Int) then some p.2 else none) := by
  induction tags with
  | nil => intro index w _; rfl
  | cons t ts ih =>
      intro index w hlen
      cases index with
      | nil => simp at hlen
      | cons x xs =>
          have hlen2 : ts.length ≤ xs.length := by simpa using hlen
          rw [projectCarryKernel_as_foldl, List.length_cons, List.range_succ_eq_map]
          rw [List.foldl_cons, List.foldl_map]
          have hfun : (fun (a : List Int) (y : Nat) =>
                projStep (t :: ts) (x :: xs) w a (Nat.succ y))
              = projStep ts xs w := by
            funext a y
            exact projStep_shift t x ts xs w a y
          rw [hfun]
          rw [foldl_projStep_acc]
          have h0 : projStep (t :: ts) (x :: xs) w [] 0
              = if t = (w : Int) then [x] else [] := by
            simp [projStep]
          rw [h0, ← projectCarryKernel_as_foldl, ih xs w hlen2]
          rw [List.zip_cons_cons, List.filterMap_cons]
          by_cases hc : t = (w : Int)
          · simp [hc]
          · simp [hc]

/-- **C7.** On an element-addressing head (`At`, `Range`, `Array`,
`Jagged`), `UnionArray::getitem_next(head, tail, advanced)` equals the
`mergebool=false` simplification of a union built from the original
tags, the regular index computed from those tags, and — as arm `i` —
the recursion `project(i).getitem_next(head, tail, advanced)`; and
`project(i)` itself is `contents[i].carry` applied to the index values
at exactly the positions where `tags == i`. -/
theorem c7_union_getitem_next (fuel : Nat) (ps : Params) (tags index : List Int)
    (contents : List Content) (h : SliceItem) (tail : List SliceItem) (adv : List Int)
    (hh : isElementHead h = true) :
    (getitemNext (fuel + 1) (.union ps tags index contents) (some h) tail adv
      = (do
          let outcontents ← (List.range contents.length).mapM (fun i => do
              let p ← unionProject tags index contents i
              getitemNext fuel p (some h) tail adv)
          let u ← mkUnion ps tags (regularIndex tags) outcontents
          u.simplifyUniontype fuel false))
    ∧ (∀ (i : Nat) (hi : i < contents.length), tags.length ≤ index.length →
        unionProject tags index contents i
          = (contents.get ⟨i, hi⟩).carry
              ((tags.zip index).filterMap
                (fun p => if p.1 = (i : Int) then some p.2 else none))) := by
  constructor
  · simp only [getitemNext]
    rw [if_pos hh]
  · intro i hi hlen
    unfold unionProject
    rw [dif_pos hi, if_neg (by omega), projectCarryKernel_eq tags index i hlen]

/-- **C7 witness.** The decomposition at a concrete two-arm union with an
integer head. -/
theorem c7_union_getitem_next_witness :
    (getitemNext 3 (.union [] [0, 1] [0, 0]
        [Content.numpy [] false [5], Content.numpy [] false [7]])
        (some (.sliceAt 0)) [] []
      = (do
          let outcontents ← (List.range
              ([Content.numpy [] false [5], Content.numpy [] false [7]] : List Content).length).mapM
              (fun i => do
                let p ← unionProject [0, 1] [0, 0]
                  [Content.numpy [] false [5], Content.numpy [] false [7]] i
                getitemNext 2 p (some (.sliceAt 0)) [] [])
          let u ← mkUnion [] [0, 1] (regularIndex [0, 1]) outcontents
          u.simplifyUniontype 2 false))
    ∧ unionProject [0, 1] [0, 0]
        [Content.numpy [] false [5], Content.numpy [] false [7]] 0
      = (Content.numpy [] false [5]).carry
          (([(0 : Int), 1].zip [(0 : Int), 0]).filterMap
            (fun p => if p.1 = ((0 : Nat) : Int) then some p.2 else none)) := by
  constructor
  · exact (c7_union_getitem_next 2 [] [0, 1] [0, 0]
      [Content.numpy [] false [5], Content.numpy [] false [7]]
      (.sliceAt 0) [] [] (by decide)).1
  · exact (c7_union_getitem_next 2 [] [0, 1] [0, 0]
      [Content.numpy [] false [5], Content.numpy [] false [7]]
      (.sliceAt 0) [] [] (by decide)).2 0 (by decide) (by decide)

theorem getD_range_map (n i : Nat) (f : Nat → Int) (d : Int) (h : i < n) :
    ((List.range n).map f).getD i d = f i := by
  simp [List.getD_eq_getElem?_getD, List.getElem?_map, List.getElem?_range, h]

theorem getAt_of_length_le : ∀ (c : Content) (i : Nat), c.length ≤ i → c.getAt i = .invalid
  | .empty _, i, _ => by simp [Content.getAt]
  | .numpy _ _ d, i, h => by
      simp only [Content.length] at h
      simp [Content.getAt, Nat.not_lt.mpr h]
  | .listOffset _ offs _, i, h => by
      simp only [Content.length] at h
      simp only [Content.getAt]
      rw [if_neg (by omega)]
  | .indexed _ idx _, i, h => by
      simp only [Content.length] at h
      simp only [Content.getAt]
      rw [if_neg (by omega)]
  | .indexedOption _ idx _, i, h => by
      simp only [Content.length] at h
      simp only [Content.getAt]
      rw [if_neg (by omega)]
  | .byteMasked _ m _ _, i, h => by
      simp only [Content.length] at h
      simp only [Content.getAt]
      rw [if_neg (by omega)]
  | .bitMasked _ _ _ _ n _, i, h => by
      simp only [Content.length] at h
      simp only [Content.getAt]
      rw [if_neg (by omega)]
  | .unmasked ps ch, i, h => by
      simp only [Content.length] at h
      simp only [Content.getAt]
      exact getAt_of_length_le ch i h
  | .record _ cs _ n, i, h => by
      simp only [Content.length] at h
      simp only [Content.getAt]
      rw [if_neg (by omega)]
  | .union _ t x cs, i, h => by
      simp only [Content.length] at h
      simp only [Content.getAt]
      rw [if_neg (by omega)]
  termination_by c _ _ => sizeOf c

theorem mergeAsUnion_empty_getAt (a : Content) (psE : Params) (i : Nat) :
    (mergeAsUnion a (.empty psE)).getAt i = a.getAt i := by
  have hz : Content.length (.empty psE) = 0 := rfl
  rcases Nat.lt_or_ge i a.length with hi | hi
  · simp only [mergeAsUnion, hz, List.replicate, List.append_nil]
    have har : arangeN 0 = [] := rfl
    rw [har, List.append_nil]
    simp only [Content.getAt, Content.length]
    rw [if_pos (by simp [hi])]
    have htag : (List.replicate a.length (0 : Int)).getD i 0 = 0 :=
      getD_replicate_left _ _ _ _ hi
    have hidx : (arangeN a.length).getD i 0 = (i : Int) := arangeN_getD _ _ _ hi
    rw [dif_pos (by rw [htag]; simp)]
    rw [if_pos (by rw [hidx]; omega)]
    have ht0 : ((List.replicate a.length (0 : Int)).getD i 0).toNat = 0 := by
      rw [htag]
      rfl
    simp only [List.get_eq_getElem, ht0, hidx, Int.toNat_natCast, List.getElem_cons_zero]
  · rw [getAt_of_length_le _ _ ?h1, getAt_of_length_le _ _ hi]
    case h1 =>
      simp [mergeAsUnion, Content.length, hz]
      omega

theorem unmaskedToIOA64_getAt (ps : Params) (ch : Content) (i : Nat) :
    (unmaskedToIOA64 ps ch).getAt i = (Content.unmasked ps ch).getAt i := by
  rcases Nat.lt_or_ge i ch.length with hi | hi
  · simp only [unmaskedToIOA64, Content.getAt]
    rw [if_pos (by simp [arangeN_length, hi])]
    have hj : (arangeN ch.length).getD i 0 = (i : Int) := arangeN_getD _ _ _ hi
    rw [hj, if_neg (by omega)]
    simp
  · rw [getAt_of_length_le _ _ (by simpa [unmaskedToIOA64, Content.length, arangeN_length] using hi),
      getAt_of_length_le _ _ (by simpa [Content.length] using hi)]

theorem byteMaskedToIOA64_getAt (ps : Params) (m : List Int) (vw : Bool)
    (ch : Content) (i : Nat) :
    (byteMaskedToIOA64 ps m vw ch).getAt i = (Content.byteMasked ps m vw ch).getAt i := by
  rcases Nat.lt_or_ge i m.length with hi | hi
  · simp only [byteMaskedToIOA64, ioaIndexOfByteMask, Content.getAt]
    rw [if_pos (by simp [hi]), if_pos hi]
    have hj : (((List.range m.length).map
        (fun k => if (decide (m.getD k 0 ≠ 0)) ≠ vw then (-1 : Int) else (k : Int))).getD i 0)
        = if (decide (m.getD i 0 ≠ 0)) ≠ vw then (-1 : Int) else (i : Int) :=
      getD_range_map _ _ _ _ hi
    rw [hj]
    by_cases hmiss : (decide (m.getD i 0 ≠ 0)) ≠ vw
    · rw [if_pos hmiss, if_pos hmiss, if_pos (by omega)]
    · rw [if_neg hmiss, if_neg hmiss, if_neg (by omega)]
      simp
  · rw [getAt_of_length_le _ _
        (by simpa [byteMaskedToIOA64, ioaIndexOfByteMask, Content.length] using hi),
      getAt_of_length_le _ _ (by simpa [Content.length] using hi)]

theorem bitMaskedToIOA64_getAt (ps : Params) (m : List Nat) (vw lsb : Bool) (n : Nat)
    (ch : Content) (i : Nat) :
    (bitMaskedToIOA64 ps m vw lsb n ch).getAt i
      = (Content.bitMasked ps m vw lsb n ch).getAt i := by
  rcases Nat.lt_or_ge i n with hi | hi
  · simp only [bitMaskedToIOA64, ioaIndexOfBitMask, Content.getAt]
    rw [if_pos (by simp [hi]), if_pos hi]
    have hj : (((List.range n).map
        (fun k => if bitAt m lsb k ≠ vw then (-1 : Int) else (k : Int))).getD i 0)
        = if bitAt m lsb i ≠ vw then (-1 : Int) else (i : Int) :=
      getD_range_map _ _ _ _ hi
    rw [hj]
    by_cases hmiss : bitAt m lsb i ≠ vw
    · rw [if_pos hmiss, if_pos hmiss, if_pos (by omega)]
    · rw [if_neg hmiss, if_neg hmiss, if_neg (by omega)]
      simp
  · rw [getAt_of_length_le _ _
        (by simpa [bitMaskedToIOA64, ioaIndexOfBitMask, Content.length] using hi),
      getAt_of_length_le _ _ (by simpa [Content.length] using hi)]

theorem pointwiseEq_refl (a : Content) : pointwiseEq a a := ⟨rfl, fun _ => rfl⟩

/-- **C2.** For every `Content` `c`, `c.merge(Empty)` succeeds (given two
steps of fuel) and is pointwise equal to `c`: same length and the same
logical element at every position.  (The result need not be structurally
identical: masked options come back as their `IndexedOption64` view, and
a parameter mismatch comes back as a two-arm union; both are pointwise
equal to `c`.) -/
theorem c2_merge_empty_pointwise (c : Content) (psE : Params) (f : Nat) :
    ∃ r, mergeF (f + 2) c (.empty psE) = .ok r ∧ pointwiseEq r c := by
  cases c with
  | empty ps =>
      exact ⟨.empty psE, rfl, rfl, fun i => by simp [Content.getAt]⟩
  | union ps t x cs =>
      by_cases hp : paramsEqual ps psE = true
      · refine ⟨.union ps t x cs, ?_, pointwiseEq_refl _⟩
        simp only [mergeF]
        rw [if_neg (by simp [Content.paramsOf, hp])]
      · refine ⟨mergeAsUnion (.union ps t x cs) (.empty psE), ?_, ?_⟩
        · simp only [mergeF]
          rw [if_pos (by simp [Content.paramsOf, hp])]
        · exact ⟨by simp [mergeAsUnion, Content.length], mergeAsUnion_empty_getAt _ _⟩
  | record ps cs lk len =>
      by_cases hp : paramsEqual ps psE = true
      · refine ⟨.record ps cs lk len, ?_, pointwiseEq_refl _⟩
        simp only [mergeF]
        rw [if_neg (by simp [Content.paramsOf, hp])]
      · refine ⟨mergeAsUnion (.record ps cs lk len) (.empty psE), ?_, ?_⟩
        · simp only [mergeF]
          rw [if_pos (by simp [Content.paramsOf, hp])]
        · exact ⟨by simp [mergeAsUnion, Content.length], mergeAsUnion_empty_getAt _ _⟩
  | numpy ps b d =>
      by_cases hp : paramsEqual ps psE = true
      · refine ⟨.numpy ps b d, ?_, pointwiseEq_refl _⟩
        simp only [mergeF]
        rw [if_neg (by simp [Content.paramsOf, hp])]
      · refine ⟨mergeAsUnion (.numpy ps b d) (.empty psE), ?_, ?_⟩
        · simp only [mergeF]
          rw [if_pos (by simp [Content.paramsOf, hp])]
        · exact ⟨by simp [mergeAsUnion, Content.length], mergeAsUnion_empty_getAt _ _⟩
  | indexed ps idx ch =>
      by_cases hp : paramsEqual ps psE = true
      · refine ⟨.indexed ps idx ch, ?_, pointwiseEq_refl _⟩
        simp only [mergeF]
        rw [if_neg (by simp [Content.paramsOf, hp])]
      · refine ⟨mergeAsUnion (.indexed ps idx ch) (.empty psE), ?_, ?_⟩
        · simp only [mergeF]
          rw [if_pos (by simp [Content.paramsOf, hp])]
        · exact ⟨by simp [mergeAsUnion, Content.length], mergeAsUnion_empty_getAt _ _⟩
  | indexedOption ps idx ch =>
      by_cases hp : paramsEqual ps psE = true
      · refine ⟨.indexedOption ps idx ch, ?_, pointwiseEq_refl _⟩
        simp only [mergeF]
        rw [if_neg (by simp [Content.paramsOf, hp])]
      · refine ⟨mergeAsUnion (.indexedOption ps idx ch) (.empty psE), ?_, ?_⟩
        · simp only [mergeF]
          rw [if_pos (by simp [Content.paramsOf, hp])]
        · exact ⟨by simp [mergeAsUnion, Content.length], mergeAsUnion_empty_getAt _ _⟩
  | listOffset ps offs ch =>
      by_cases hp : paramsEqual ps psE = true
      · refine ⟨.listOffset ps offs ch, ?_, pointwiseEq_refl _⟩
        simp only [mergeF]
        rw [if_neg (by simp [Content.paramsOf, hp])]
      · refine ⟨mergeAsUnion (.listOffset ps offs ch) (.empty psE), ?_, ?_⟩
        · simp only [mergeF]
          rw [if_pos (by simp [Content.paramsOf, hp])]
        · exact ⟨by simp [mergeAsUnion, Content.length], mergeAsUnion_empty_getAt _ _⟩
  | unmasked ps ch =>
      by_cases hp : paramsEqual ps psE = true
      · refine ⟨unmaskedToIOA64 ps ch, ?_, ?_⟩
        · simp only [mergeF, unmaskedToIOA64]
          rw [if_neg (by simp [Content.paramsOf, hp])]
        · exact ⟨by simp [unmaskedToIOA64, Content.length, arangeN_length],
            unmaskedToIOA64_getAt ps ch⟩
      · refine ⟨mergeAsUnion (unmaskedToIOA64 ps ch) (.empty psE), ?_, ?_⟩
        · simp only [mergeF, unmaskedToIOA64]
          rw [if_pos (by simp [Content.paramsOf, hp])]
        · refine ⟨by simp [mergeAsUnion, unmaskedToIOA64, Content.length, arangeN_length], ?_⟩
          intro i
          rw [mergeAsUnion_empty_getAt, unmaskedToIOA64_getAt]
  | byteMasked ps m vw ch =>
      by_cases hp : paramsEqual ps psE = true
      · refine ⟨byteMaskedToIOA64 ps m vw ch, ?_, ?_⟩
        · simp only [mergeF, byteMaskedToIOA64]
          rw [if_neg (by simp [Content.paramsOf, hp])]
        · exact ⟨by simp [byteMaskedToIOA64, ioaIndexOfByteMask, Content.length],
            byteMaskedToIOA64_getAt ps m vw ch⟩
      · refine ⟨mergeAsUnion (byteMaskedToIOA64 ps m vw ch) (.empty psE), ?_, ?_⟩
        · simp only [mergeF, byteMaskedToIOA64]
          rw [if_pos (by simp [Content.paramsOf, hp])]
        · refine ⟨by simp [mergeAsUnion, byteMaskedToIOA64, ioaIndexOfByteMask,
            Content.length], ?_⟩
          intro i
          rw [mergeAsUnion_empty_getAt, byteMaskedToIOA64_getAt]
  | bitMasked ps m vw lsb n ch =>
      by_cases hp : paramsEqual ps psE = true
      · refine ⟨bitMaskedToIOA64 ps m vw lsb n ch, ?_, ?_⟩
        · simp only [mergeF, bitMaskedToIOA64]
          rw [if_neg (by simp [Content.paramsOf, hp])]
        · exact ⟨by simp [bitMaskedToIOA64, ioaIndexOfBitMask, Content.length],
            bitMaskedToIOA64_getAt ps m vw lsb n ch⟩
      · refine ⟨mergeAsUnion (bitMaskedToIOA64 ps m vw lsb n ch) (.empty psE), ?_, ?_⟩
        · simp only [mergeF, bitMaskedToIOA64]
          rw [if_pos (by simp [Content.paramsOf, hp])]
        · refine ⟨by simp [mergeAsUnion, bitMaskedToIOA64, ioaIndexOfBitMask,
            Content.length], ?_⟩
          intro i
          rw [mergeAsUnion_empty_getAt, bitMaskedToIOA64_getAt]

theorem sliceList_ok {xs : List Int} {s e : Nat} {out : List Int}
    (h : sliceList xs s e = .ok out) :
    out.length = e - s ∧ s ≤ e ∧ e ≤ xs.length := by
  unfold sliceList at h
  split at h
  · rename_i hc
    injection h with h2
    rw [← h2]
    refine ⟨?_, hc.1, hc.2⟩
    simp
    omega
  · cases h

theorem mapM_props {α β : Type} (f : α → Except Err β) (P : β → Prop) :
    ∀ (l : List α) (out : List β), l.mapM f = .ok out →
    (∀ x ∈ l, ∀ y, f x = .ok y → P y) →
    out.length = l.length ∧ ∀ y ∈ out, P y := by
  intro l
  induction l with
  | nil =>
      intro out h _
      simp only [List.mapM_nil] at h
      injection h with h2
      rw [← h2]
      exact ⟨rfl, fun y hy => absurd hy (List.not_mem_nil y)⟩
  | cons x rest ih =>
      intro out h hP
      rw [List.mapM_cons] at h
      obtain ⟨y, hy, h2⟩ := exbind_eq_ok h
      obtain ⟨ys, hys, h3⟩ := exbind_eq_ok h2
      have h4 : (y :: ys : List β) = out := Except.ok.inj h3
      obtain ⟨hlen, hall⟩ := ih ys hys (fun z hz => hP z (List.mem_cons_of_mem _ hz))
      rw [← h4]
      refine ⟨by simp [hlen], ?_⟩
      intro z hz
      rcases List.mem_cons.mp hz with h5 | h5
      · subst h5
        exact hP x (List.mem_cons_self _ _) z hy
      · exact hall z h5

theorem lenOk_record_fields {ps : Params} {cs : List Content} {lk : Option (List String)}
    {n : Nat} (h : lenOk (.record ps cs lk n) = true) :
    ∀ c ∈ cs, n ≤ c.length ∧ lenOk c = true := by
  intro c hc
  cases lk with
  | none =>
      simp only [lenOk, Bool.and_eq_true, List.all_eq_true] at h
      have h2 := h.1 ⟨c, hc⟩ (List.mem_attach _ _)
      simpa [Bool.and_eq_true, decide_eq_true_eq] using h2
  | some l =>
      simp only [lenOk, Bool.and_eq_true, List.all_eq_true] at h
      have h2 := h.1 ⟨c, hc⟩ (List.mem_attach _ _)
      simpa [Bool.and_eq_true, decide_eq_true_eq] using h2

theorem lenOk_record_lookup {ps : Params} {cs : List Content} {lk : Option (List String)}
    {n : Nat} (h : lenOk (.record ps cs lk n) = true) :
    ∀ l, lk = some l → l.length = cs.length := by
  intro l hl
  subst hl
  simp only [lenOk, Bool.and_eq_true, List.all_eq_true] at h
  simpa using h.2

theorem lenOk_record_intro {ps : Params} {cs : List Content} {lk : Option (List String)}
    {n : Nat} (h1 : ∀ c ∈ cs, n ≤ c.length ∧ lenOk c = true)
    (h2 : ∀ l, lk = some l → l.length = cs.length) :
    lenOk (.record ps cs lk n) = true := by
  cases lk with
  | none =>
      simp only [lenOk, Bool.and_eq_true, List.all_eq_true]
      refine ⟨?_, trivial⟩
      intro x _
      have h3 := h1 x.1 x.2
      simp [Bool.and_eq_true, decide_eq_true_eq, h3.1, h3.2]
  | some l =>
      simp only [lenOk, Bool.and_eq_true, List.all_eq_true]
      constructor
      · intro x _
        have h3 := h1 x.1 x.2
        simp [Bool.and_eq_true, decide_eq_true_eq, h3.1, h3.2]
      · simpa using h2 l rfl

theorem lenOk_union_fields {ps : Params} {tags idx : List Int} {cs : List Content}
    (h : lenOk (.union ps tags idx cs) = true) : ∀ c ∈ cs, lenOk c = true := by
  intro c hc
  simp only [lenOk, List.all_eq_true] at h
  exact h ⟨c, hc⟩ (List.mem_attach _ _)

theorem lenOk_union_intro {ps : Params} {tags idx : List Int} {cs : List Content}
    (h : ∀ c ∈ cs, lenOk c = true) : lenOk (.union ps tags idx cs) = true := by
  simp only [lenOk, List.all_eq_true]
  intro x _
  exact h x.1 x.2

theorem trim_len : ∀ (c : Content) (e : Nat) (t : Content),
    lenOk c = true → e ≤ c.length → Content.getitemRangeNowrap c 0 e = .ok t →
    t.length = e ∧ lenOk t = true
  | .empty ps, e, t, _, he, htr => by
      simp only [Content.length] at he
      simp only [Content.getitemRangeNowrap] at htr
      injection htr with h2
      rw [← h2]
      have he0 : e = 0 := Nat.le_zero.mp he
      subst he0
      exact ⟨rfl, by simp [lenOk]⟩
  | .numpy ps b d, e, t, _, _, htr => by
      simp only [Content.getitemRangeNowrap] at htr
      obtain ⟨out, hsl, h2⟩ := exbind_eq_ok htr
      have hs := sliceList_ok hsl
      injection h2 with h3
      rw [← h3]
      exact ⟨by simp [Content.length, hs.1], by simp [lenOk]⟩
  | .listOffset ps offs ch, e, t, hok, _, htr => by
      simp only [Content.getitemRangeNowrap] at htr
      obtain ⟨out, hsl, h2⟩ := exbind_eq_ok htr
      have hs := sliceList_ok hsl
      injection h2 with h3
      rw [← h3]
      refine ⟨by simp [Content.length, hs.1], ?_⟩
      simp only [lenOk] at hok ⊢
      exact hok
  | .indexed ps idx ch, e, t, hok, _, htr => by
      simp only [Content.getitemRangeNowrap] at htr
      obtain ⟨out, hsl, h2⟩ := exbind_eq_ok htr
      have hs := sliceList_ok hsl
      injection h2 with h3
      rw [← h3]
      refine ⟨by simp [Content.length, hs.1], ?_⟩
      simp only [lenOk] at hok ⊢
      exact hok
  | .indexedOption ps idx ch, e, t, hok, _, htr => by
      simp only [Content.getitemRangeNowrap] at htr
      obtain ⟨out, hsl, h2⟩ := exbind_eq_ok htr
      have hs := sliceList_ok hsl
      injection h2 with h3
      rw [← h3]
      refine ⟨by simp [Content.length, hs.1], ?_⟩
      simp only [lenOk] at hok ⊢
      exact hok
  | .byteMasked ps m vw ch, e, t, hok, he, htr => by
      simp only [Content.length] at he
      simp only [lenOk, Bool.and_eq_true, decide_eq_true_eq] at hok
      simp only [Content.getitemRangeNowrap] at htr
      obtain ⟨m2, hsl, h2⟩ := exbind_eq_ok htr
      obtain ⟨c2, htr2, h3⟩ := exbind_eq_ok h2
      have hs := sliceList_ok hsl
      have hrec := trim_len ch e c2 hok.2 (Nat.le_trans he hok.1) htr2
      injection h3 with h4
      rw [← h4]
      refine ⟨by simp [Content.length, hs.1], ?_⟩
      simp only [lenOk, Bool.and_eq_true, decide_eq_true_eq]
      exact ⟨by omega, hrec.2⟩
  | .bitMasked ps m vw lsb n ch, e, t, hok, he, htr => by
      simp only [Content.length] at he
      simp only [lenOk, Bool.and_eq_true, decide_eq_true_eq] at hok
      simp only [Content.getitemRangeNowrap] at htr
      obtain ⟨m2, hsl, h2⟩ := exbind_eq_ok htr
      obtain ⟨c2, htr2, h3⟩ := exbind_eq_ok h2
      have hs := sliceList_ok hsl
      have hrec := trim_len ch e c2 hok.2 (Nat.le_trans he hok.1) htr2
      injection h3 with h4
      rw [← h4]
      refine ⟨by simp [Content.length, hs.1], ?_⟩
      simp only [lenOk, Bool.and_eq_true, decide_eq_true_eq]
      exact ⟨by omega, hrec.2⟩
  | .unmasked ps ch, e, t, hok, he, htr => by
      simp only [Content.length] at he
      simp only [lenOk] at hok
      simp only [Content.getitemRangeNowrap] at htr
      obtain ⟨c2, htr2, h2⟩ := exbind_eq_ok htr
      have hrec := trim_len ch e c2 hok he htr2
      injection h2 with h3
      rw [← h3]
      refine ⟨by simp [Content.length, hrec.1], ?_⟩
      simp only [lenOk]
      exact hrec.2
  | .record ps cs lk n, e, t, hok, he, htr => by
      simp only [Content.length] at he
      simp only [Content.getitemRangeNowrap] at htr
      by_cases hemp : cs.isEmpty
      · rw [if_pos hemp] at htr
        injection htr with h2
        rw [← h2]
        have hcs : cs = [] := List.isEmpty_eq_true.mp hemp
        subst hcs
        refine ⟨by simp [Content.length], ?_⟩
        refine lenOk_record_intro (by intro c hc; cases hc) ?_
        intro l hl
        exact lenOk_record_lookup hok l hl
      · rw [if_neg hemp] at htr
        obtain ⟨cs2, hmap, h2⟩ := exbind_eq_ok htr
        have hfields := lenOk_record_fields hok
        have key : ∀ x ∈ cs.attach, ∀ y,
            Content.getitemRangeNowrap x.1 0 e = .ok y →
            (y.length = e ∧ lenOk y = true) := by
          intro x _ y hy
          exact trim_len x.1 e y (hfields x.1 x.2).2
            (Nat.le_trans he (hfields x.1 x.2).1) hy
        obtain ⟨hlen2, hall⟩ := mapM_props _ _ _ _ hmap key
        injection h2 with h3
        rw [← h3]
        refine ⟨by simp [Content.length], ?_⟩
        refine lenOk_record_intro ?_ ?_
        · intro c hc
          have hc2 := hall c hc
          exact ⟨by omega, hc2.2⟩
        · intro l hl
          rw [hlen2, List.length_attach]
          exact lenOk_record_lookup hok l hl
  | .union ps tags idx cs, e, t, hok, he, htr => by
      simp only [Content.getitemRangeNowrap] at htr
      obtain ⟨t2, hsl1, h2⟩ := exbind_eq_ok htr
      obtain ⟨x2, hsl2, h3⟩ := exbind_eq_ok h2
      have hs1 := sliceList_ok hsl1
      injection h3 with h4
      rw [← h4]
      refine ⟨by simp [Content.length, hs1.1], ?_⟩
      exact lenOk_union_intro (lenOk_union_fields hok)
  termination_by c _ _ _ _ _ => sizeOf c
  decreasing_by
    all_goals simp_wf
    all_goals first
      | omega
      | (obtain ⟨c, hmem⟩ := x
         have := List.sizeOf_lt_of_mem hmem
         simp only []
         omega)

theorem insertStr_length (s : String) (l : List String) :
    (insertStr s l).length = l.length + 1 := by
  induction l with
  | nil => rfl
  | cons t rest ih =>
      simp only [insertStr]
      split
      · simp
      · simp [ih]

theorem sortStrs_length (l : List String) : (sortStrs l).length = l.length := by
  induction l with
  | nil => rfl
  | cons s rest ih => simp [sortStrs, insertStr_length, ih]

theorem mkUnion_ok {ps : Params} {t x : List Int} {cs : List Content} {r : Content}
    (h : mkUnion ps t x cs = .ok r) : r = .union ps t x cs := by
  unfold mkUnion at h
  split at h
  · simp at h
  · split at h
    · simp at h
    · exact (Except.ok.inj h).symm

theorem mergeAsUnion_length (a b : Content) :
    (mergeAsUnion a b).length = a.length + b.length := by
  simp [mergeAsUnion, Content.length]

theorem recordField_mem {cs : List Content} {lk : Option (List String)} {k : String}
    {f : Content} (h : recordField cs lk k = .ok f) : f ∈ cs := by
  unfold recordField at h
  split at h
  · split at h
    · rw [← Except.ok.inj h]
      exact List.get_mem _ _ _
    · simp at h
  · simp at h

theorem unmaskedToIOA64_length (ps : Params) (c : Content) :
    (unmaskedToIOA64 ps c).length = c.length := by
  simp [unmaskedToIOA64, Content.length, arangeN]

theorem byteMaskedToIOA64_length (ps : Params) (m : List Int) (vw : Bool)
    (c : Content) : (byteMaskedToIOA64 ps m vw c).length = m.length := by
  simp [byteMaskedToIOA64, Content.length, ioaIndexOfByteMask]

theorem bitMaskedToIOA64_length (ps : Params) (m : List Nat) (vw lsb : Bool)
    (n : Nat) (c : Content) : (bitMaskedToIOA64 ps m vw lsb n c).length = n := by
  simp [bitMaskedToIOA64, Content.length, ioaIndexOfBitMask]

theorem minAux_const (v : Nat) : ∀ (cs : List Content), (∀ y ∈ cs, y.length = v) →
    minAux cs v = v
  | [], _ => rfl
  | c :: rest, h => by
      rw [minAux_cons, h c (List.mem_cons_self _ _), Nat.min_self]
      exact minAux_const v rest (fun y hy => h y (List.mem_cons_of_mem _ hy))

theorem minlength_const {cs : List Content} {v : Nat} (hne : cs ≠ [])
    (h : ∀ y ∈ cs, y.length = v) : minlength cs = v := by
  cases cs with
  | nil => exact absurd rfl hne
  | cons c rest =>
      rw [minlength_cons, h c (List.mem_cons_self _ _)]
      exact minAux_const v rest (fun y hy => h y (List.mem_cons_of_mem _ hy))

/-- Length additivity of `merge` under the structural validity `lenOk`,
together with the unconditional length additivity of `reverse_merge`. -/
theorem mergeAdd (fuel : Nat) :
    (∀ self other r, lenOk self = true → lenOk other = true →
       mergeF fuel self other = .ok r → r.length = self.length + other.length) ∧
    (∀ self other r, reverseMergeF fuel self other = .ok r →
       r.length = other.length + self.length) := by
  induction fuel with
  | zero =>
      constructor
      · intro self other r _ _ h
        simp [mergeF] at h
      · intro self other r h
        simp [reverseMergeF] at h
  | succ fuel ih =>
      constructor
      · intro self other r hs ho h
        cases self with
        | empty ps =>
            simp only [mergeF] at h
            rw [Except.ok.inj h]
            simp [Content.length]
        | unmasked ps ch =>
            simp only [mergeF] at h
            simp only [lenOk] at hs
            have hok2 : lenOk (unmaskedToIOA64 ps ch) = true := by
              simp only [unmaskedToIOA64, lenOk]
              exact hs
            have hadd := ih.1 _ _ _ hok2 ho h
            rw [hadd, unmaskedToIOA64_length]
            simp [Content.length]
        | byteMasked ps m vw ch =>
            simp only [mergeF] at h
            simp only [lenOk, Bool.and_eq_true] at hs
            have hok2 : lenOk (byteMaskedToIOA64 ps m vw ch) = true := by
              simp only [byteMaskedToIOA64, lenOk]
              exact hs.2
            have hadd := ih.1 _ _ _ hok2 ho h
            rw [hadd, byteMaskedToIOA64_length]
            simp [Content.length]
        | bitMasked ps m vw lsb n ch =>
            simp only [mergeF] at h
            simp only [lenOk, Bool.and_eq_true] at hs
            have hok2 : lenOk (bitMaskedToIOA64 ps m vw lsb n ch) = true := by
              simp only [bitMaskedToIOA64, lenOk]
              exact hs.2
            have hadd := ih.1 _ _ _ hok2 ho h
            rw [hadd, bitMaskedToIOA64_length]
            simp [Content.length]
        | union ps tags idx cs =>
            cases other
            case empty ps2 =>
                simp only [mergeF] at h
                split at h
                · rw [← Except.ok.inj h]
                  exact mergeAsUnion_length _ _
                · rw [← Except.ok.inj h]
                  simp [Content.length]
            all_goals
              simp only [mergeF, unionMergeParts] at h
            all_goals
              split at h
            all_goals first
              | (rw [← Except.ok.inj h]
                 exact mergeAsUnion_length _ _)
              | (split at h
                 · simp at h
                 · rw [mkUnion_ok h]
                   simp [Content.length])
        | numpy ps b d =>
            cases other
            case empty ps2 =>
                simp only [mergeF] at h
                split at h
                · rw [← Except.ok.inj h]
                  exact mergeAsUnion_length _ _
                · rw [← Except.ok.inj h]
                  simp [Content.length]
            case numpy ps2 b2 d2 =>
                simp only [mergeF] at h
                split at h
                · rw [← Except.ok.inj h]
                  exact mergeAsUnion_length _ _
                · split at h
                  · rw [← Except.ok.inj h]
                    simp [Content.length]
                  · simp at h
            case listOffset ps2 offs2 ch2 =>
                simp only [mergeF] at h
                split at h
                · rw [← Except.ok.inj h]
                  exact mergeAsUnion_length _ _
                · simp at h
            case record ps2 cs2 lk2 len2 =>
                simp only [mergeF] at h
                split at h
                · rw [← Except.ok.inj h]
                  exact mergeAsUnion_length _ _
                · simp at h
            all_goals
              simp only [mergeF] at h
            all_goals
              split at h
            all_goals first
              | (rw [← Except.ok.inj h]
                 exact mergeAsUnion_length _ _)
              | exact ih.2 _ _ _ h
        | indexed ps idx ch =>
            cases other
            case empty ps2 =>
                simp only [mergeF] at h
                split at h
                · rw [← Except.ok.inj h]
                  exact mergeAsUnion_length _ _
                · rw [← Except.ok.inj h]
                  simp [Content.length]
            case numpy ps2 b2 d2 =>
                simp only [mergeF] at h
                split at h
                · rw [← Except.ok.inj h]
                  exact mergeAsUnion_length _ _
                · simp at h
            case listOffset ps2 offs2 ch2 =>
                simp only [mergeF] at h
                split at h
                · rw [← Except.ok.inj h]
                  exact mergeAsUnion_length _ _
                · simp at h
            case record ps2 cs2 lk2 len2 =>
                simp only [mergeF] at h
                split at h
                · rw [← Except.ok.inj h]
                  exact mergeAsUnion_length _ _
                · simp at h
            all_goals
              simp only [mergeF] at h
            all_goals
              split at h
            all_goals first
              | (rw [← Except.ok.inj h]
                 exact mergeAsUnion_length _ _)
              | exact ih.2 _ _ _ h
        | indexedOption ps idx ch =>
            cases other
            case empty ps2 =>
                simp only [mergeF] at h
                split at h
                · rw [← Except.ok.inj h]
                  exact mergeAsUnion_length _ _
                · rw [← Except.ok.inj h]
                  simp [Content.length]
            case numpy ps2 b2 d2 =>
                simp only [mergeF] at h
                split at h
                · rw [← Except.ok.inj h]
                  exact mergeAsUnion_length _ _
                · simp at h
            case listOffset ps2 offs2 ch2 =>
                simp only [mergeF] at h
                split at h
                · rw [← Except.ok.inj h]
                  exact mergeAsUnion_length _ _
                · simp at h
            case record ps2 cs2 lk2 len2 =>
                simp only [mergeF] at h
                split at h
                · rw [← Except.ok.inj h]
                  exact mergeAsUnion_length _ _
                · simp at h
            all_goals
              simp only [mergeF] at h
            all_goals
              split at h
            all_goals first
              | (rw [← Except.ok.inj h]
                 exact mergeAsUnion_length _ _)
              | exact ih.2 _ _ _ h
        | listOffset ps offs ch =>
            cases other
            case empty ps2 =>
                simp only [mergeF] at h
                split at h
                · rw [← Except.ok.inj h]
                  exact mergeAsUnion_length _ _
                · rw [← Except.ok.inj h]
                  simp [Content.length]
            case numpy ps2 b2 d2 =>
                simp only [mergeF] at h
                split at h
                · rw [← Except.ok.inj h]
                  exact mergeAsUnion_length _ _
                · simp at h
            case listOffset ps2 offs2 ch2 =>
                simp only [mergeF] at h
                split at h
                · rw [← Except.ok.inj h]
                  exact mergeAsUnion_length _ _
                · simp at h
            case record ps2 cs2 lk2 len2 =>
                simp only [mergeF] at h
                split at h
                · rw [← Except.ok.inj h]
                  exact mergeAsUnion_length _ _
                · simp at h
            all_goals
              simp only [mergeF] at h
            all_goals
              split at h
            all_goals first
              | (rw [← Except.ok.inj h]
                 exact mergeAsUnion_length _ _)
              | exact ih.2 _ _ _ h
        | record ps cs lk len =>
            cases other
            case empty ps2 =>
                simp only [mergeF] at h
                split at h
                · rw [← Except.ok.inj h]
                  exact mergeAsUnion_length _ _
                · rw [← Except.ok.inj h]
                  simp [Content.length]
            case numpy ps2 b2 d2 =>
                simp only [mergeF] at h
                split at h
                · rw [← Except.ok.inj h]
                  exact mergeAsUnion_length _ _
                · simp at h
            case listOffset ps2 offs2 ch2 =>
                simp only [mergeF] at h
                split at h
                · rw [← Except.ok.inj h]
                  exact mergeAsUnion_length _ _
                · simp at h
            case record ps2 cs2 lk2 len2 =>
                simp only [mergeF] at h
                split at h
                · rw [← Except.ok.inj h]
                  exact mergeAsUnion_length _ _
                · split at h
                  · rw [← Except.ok.inj h]
                    simp [Content.length]
                  · rename_i hc1
                    split at h
                    · rename_i hc2
                      split at h
                      · rename_i hcs
                        obtain ⟨merged, hmap, h2⟩ := exbind_eq_ok h
                        have key : ∀ p ∈ cs.zip cs2, ∀ y,
                            (do
                              let mine ← Content.getitemRangeNowrap p.1 0 len
                              let theirs ← Content.getitemRangeNowrap p.2 0 len2
                              mergeF fuel mine theirs) = .ok y →
                            y.length = len + len2 := by
                          intro p hp y hy
                          obtain ⟨a, b⟩ := p
                          obtain ⟨mine, hm1, hy2⟩ := exbind_eq_ok hy
                          obtain ⟨theirs, hm2, hy3⟩ := exbind_eq_ok hy2
                          have hmem := List.of_mem_zip hp
                          have hf1 := lenOk_record_fields hs a hmem.1
                          have hf2 := lenOk_record_fields ho b hmem.2
                          have ht1 := trim_len a len mine hf1.2 hf1.1 hm1
                          have ht2 := trim_len b len2 theirs hf2.2 hf2.1 hm2
                          have hadd := ih.1 mine theirs y ht1.2 ht2.2 hy3
                          omega
                        obtain ⟨hlen, hall⟩ := mapM_props _ _ _ _ hmap key
                        rw [← Except.ok.inj h2]
                        have hne : merged ≠ [] := by
                          intro hemp
                          rw [hemp, List.length_zip] at hlen
                          simp at hlen
                          exact hc1 ⟨hc2.1.trans hc2.2.symm, by omega, by omega⟩
                        have hmin : minlength merged = len + len2 :=
                          minlength_const hne hall
                        simp [mkRecord, Content.length, hmin]
                      · simp at h
                    · rename_i hc2
                      split at h
                      · rename_i hc3
                        split at h
                        · rename_i hsort
                          obtain ⟨l, hl⟩ := Option.isSome_iff_exists.mp hc3.1
                          obtain ⟨l2, hl2⟩ := Option.isSome_iff_exists.mp hc3.2
                          subst hl
                          subst hl2
                          simp only [keysOf] at h hsort
                          obtain ⟨merged, hmap, h2⟩ := exbind_eq_ok h
                          have key : ∀ k ∈ l, ∀ y,
                              (do
                                let f1 ← recordField cs (some l) k
                                let f2 ← recordField cs2 (some l2) k
                                let mine ← Content.getitemRangeNowrap f1 0 len
                                let theirs ← Content.getitemRangeNowrap f2 0 len2
                                mergeF fuel mine theirs) = .ok y →
                              y.length = len + len2 := by
                            intro k _ y hy
                            obtain ⟨f1, hr1, hy1⟩ := exbind_eq_ok hy
                            obtain ⟨f2, hr2, hy2⟩ := exbind_eq_ok hy1
                            obtain ⟨mine, hm1, hy3⟩ := exbind_eq_ok hy2
                            obtain ⟨theirs, hm2, hy4⟩ := exbind_eq_ok hy3
                            have hf1 := lenOk_record_fields hs f1 (recordField_mem hr1)
                            have hf2 := lenOk_record_fields ho f2 (recordField_mem hr2)
                            have ht1 := trim_len f1 len mine hf1.2 hf1.1 hm1
                            have ht2 := trim_len f2 len2 theirs hf2.2 hf2.1 hm2
                            have hadd := ih.1 mine theirs y ht1.2 ht2.2 hy4
                            omega
                          obtain ⟨hlen, hall⟩ := mapM_props _ _ _ _ hmap key
                          rw [← Except.ok.inj h2]
                          have hlk1 := lenOk_record_lookup hs l rfl
                          have hlk2 := lenOk_record_lookup ho l2 rfl
                          have hne : merged ≠ [] := by
                            intro hemp
                            rw [hemp] at hlen
                            simp at hlen
                            have hsl : (sortStrs l).length = (sortStrs l2).length := by
                              rw [hsort]
                            rw [sortStrs_length, sortStrs_length] at hsl
                            exact hc1 ⟨rfl, by omega, by omega⟩
                          have hmin : minlength merged = len + len2 :=
                            minlength_const hne hall
                          simp [mkRecord, Content.length, hmin]
                        · simp at h
                      · simp at h
            all_goals
              simp only [mergeF] at h
            all_goals
              split at h
            all_goals first
              | (rw [← Except.ok.inj h]
                 exact mergeAsUnion_length _ _)
              | exact ih.2 _ _ _ h
      · intro self other r h
        cases self with
        | union ps tags idx cs =>
            simp only [reverseMergeF, unionReverseMerge] at h
            split at h
            · simp at h
            · rw [mkUnion_ok h]
              simp [Content.length]
        | unmasked ps ch =>
            simp only [reverseMergeF] at h
            have hadd := ih.2 _ _ _ h
            rw [hadd, unmaskedToIOA64_length]
            simp [Content.length]
        | byteMasked ps m vw ch =>
            simp only [reverseMergeF] at h
            have hadd := ih.2 _ _ _ h
            rw [hadd, byteMaskedToIOA64_length]
            simp [Content.length]
        | bitMasked ps m vw lsb n ch =>
            simp only [reverseMergeF] at h
            have hadd := ih.2 _ _ _ h
            rw [hadd, bitMaskedToIOA64_length]
            simp [Content.length]
        | indexedOption ps idx ch =>
            simp only [reverseMergeF] at h
            rw [← Except.ok.inj h]
            simp [Content.length, arangeN]
        | indexed ps idx ch =>
            simp only [reverseMergeF] at h
            rw [← Except.ok.inj h]
            simp [Content.length, arangeN]
        | empty ps =>
            simp only [reverseMergeF] at h
            simp at h
        | numpy ps b d =>
            simp only [reverseMergeF] at h
            simp at h
        | listOffset ps offs ch =>
            simp only [reverseMergeF] at h
            simp at h
        | record ps cs lk len =>
            simp only [reverseMergeF] at h
            simp at h

/-- **C3 counterexample.** A record whose stored length (1) exceeds its
only field length (0) merges successfully with a compatible empty-length
record, but the result length is 0, not 1 + 0: the claim fails without a
structural-validity hypothesis, because `RecordArray::merge` rebuilds the
result length as the minimum of the merged field lengths. -/
theorem c3_merge_length_counterexample :
    ∃ r, mergeF 3 (.record [] [.empty []] none 1) (.record [] [.empty []] none 0)
        = .ok r ∧
      ¬ r.length = (Content.record [] [.empty []] none 1).length +
          (Content.record [] [.empty []] none 0).length := by
  refine ⟨.record [] [.empty []] none 0, ?_, by simp [Content.length]⟩
  have he1 : Content.getitemRangeNowrap (.empty []) 0 1 = .ok (.empty []) := by
    simp [Content.getitemRangeNowrap]
  have he0 : Content.getitemRangeNowrap (.empty []) 0 0 = .ok (.empty []) := by
    simp [Content.getitemRangeNowrap]
  have hme : mergeF 2 (Content.empty []) (Content.empty []) = .ok (.empty []) := rfl
  have hpure : (pure [] : Except Err (List Content)) = .ok [] := rfl
  have hstep : mergeF 3 (.record [] [.empty []] none 1) (.record [] [.empty []] none 0)
      = ([((Content.empty [] : Content), (Content.empty [] : Content))].mapM
          (fun p => do
            let mine ← Content.getitemRangeNowrap p.1 0 1
            let theirs ← Content.getitemRangeNowrap p.2 0 0
            mergeF 2 mine theirs))
        >>= (fun merged => Except.ok (mkRecord [] merged none)) := rfl
  rw [hstep]
  simp only [List.mapM_cons, List.mapM_nil, he1, he0, hme, hpure, exbind_ok]
  rfl

/-- **C3 (amended).** For all structurally valid Contents `c1` and `c2`
(`lenOk`: every record node's stored length is at most each of its field
lengths, every mask fits within its child, and every record lookup has
exactly one key per field, recursively) for which `merge` succeeds, the
result length equals `c1.length + c2.length`.  Without the validity
hypothesis the claim fails (`c3_merge_length_counterexample`): a record
whose stored length exceeds its field lengths merges successfully, but
`RecordArray::merge` rebuilds the length as the minimum of the merged
field lengths. -/
theorem c3_merge_length_additivity (fuel : Nat) (c1 c2 r : Content)
    (h1 : lenOk c1 = true) (h2 : lenOk c2 = true)
    (h : mergeF fuel c1 c2 = .ok r) :
    r.length = c1.length + c2.length :=
  (mergeAdd fuel).1 c1 c2 r h1 h2 h

/-- **C3 witness.** Two dense leaves of lengths 2 and 1 merge to a leaf of
length 3. -/
theorem c3_merge_length_additivity_witness :
    (Content.numpy [] false [5, 6, 7]).length
      = (Content.numpy [] false [5, 6]).length + (Content.numpy [] false [7]).length :=
  c3_merge_length_additivity 1 (.numpy [] false [5, 6]) (.numpy [] false [7])
    (.numpy [] false [5, 6, 7]) (by simp [lenOk]) (by simp [lenOk]) rfl
